import Mathlib

/-!
Verification of the matching / ranking engine of the HTU directory assistant
(`utils.js`, class `HTUAssistant`).  The JavaScript code is shallowly embedded:
strings are Lean `String`s (lists of unicode scalars), JS numbers appearing in
similarity scores are embedded as rationals (`ℚ`), fallible JS code is embedded
with `Except`/`Option`, and the JS built-ins used by the code
(`toLowerCase`, `trim`, `normalize('NFD')`, the `\p{Diacritic}`,
`\p{Punctuation}` and `\s` character classes) are embedded by explicit
character tables covering the Basic Latin and Latin-1 repertoire that the
directory data uses.
-/

namespace HTU

/-- Case mapping table of `String.prototype.toLowerCase` restricted to the
Basic Latin and Latin-1 Supplement blocks: the 26 ASCII capitals and the
uppercase accented range U+00C0–U+00DE (U+00D7 `×` is a symbol and has no
case mapping). -/
def lowerTable : List (Char × Char) :=
  [('A', 'a'), ('B', 'b'), ('C', 'c'), ('D', 'd'), ('E', 'e'), ('F', 'f'),
   ('G', 'g'), ('H', 'h'), ('I', 'i'), ('J', 'j'), ('K', 'k'), ('L', 'l'),
   ('M', 'm'), ('N', 'n'), ('O', 'o'), ('P', 'p'), ('Q', 'q'), ('R', 'r'),
   ('S', 's'), ('T', 't'), ('U', 'u'), ('V', 'v'), ('W', 'w'), ('X', 'x'),
   ('Y', 'y'), ('Z', 'z'),
   ('À', 'à'), ('Á', 'á'), ('Â', 'â'), ('Ã', 'ã'), ('Ä', 'ä'), ('Å', 'å'),
   ('Æ', 'æ'), ('Ç', 'ç'), ('È', 'è'), ('É', 'é'), ('Ê', 'ê'), ('Ë', 'ë'),
   ('Ì', 'ì'), ('Í', 'í'), ('Î', 'î'), ('Ï', 'ï'), ('Ð', 'ð'), ('Ñ', 'ñ'),
   ('Ò', 'ò'), ('Ó', 'ó'), ('Ô', 'ô'), ('Õ', 'õ'), ('Ö', 'ö'), ('Ø', 'ø'),
   ('Ù', 'ù'), ('Ú', 'ú'), ('Û', 'û'), ('Ü', 'ü'), ('Ý', 'ý'), ('Þ', 'þ')]

/-- Association lookup used by the character tables and by the `Map`-based
deduplication (first matching key). -/
def alookup {α β : Type} [DecidableEq α] : List (α × β) → α → Option β
  | [], _ => none
  | (k, v) :: t, c => if c = k then some v else alookup t c

/-- Embedding of `toLowerCase` on a single character. -/
def jsToLower (c : Char) : Char := (alookup lowerTable c).getD c

/-- Canonical decomposition table of `String.prototype.normalize('NFD')` for
the Latin-1 letters that have a canonical decomposition (base letter plus
combining mark U+0300–U+0327). -/
def nfdTable : List (Char × List Char) :=
  [('à', ['a', '\u0300']), ('á', ['a', '\u0301']), ('â', ['a', '\u0302']),
   ('ã', ['a', '\u0303']), ('ä', ['a', '\u0308']), ('å', ['a', '\u030A']),
   ('ç', ['c', '\u0327']), ('è', ['e', '\u0300']), ('é', ['e', '\u0301']),
   ('ê', ['e', '\u0302']), ('ë', ['e', '\u0308']), ('ì', ['i', '\u0300']),
   ('í', ['i', '\u0301']), ('î', ['i', '\u0302']), ('ï', ['i', '\u0308']),
   ('ñ', ['n', '\u0303']), ('ò', ['o', '\u0300']), ('ó', ['o', '\u0301']),
   ('ô', ['o', '\u0302']), ('õ', ['o', '\u0303']), ('ö', ['o', '\u0308']),
   ('ù', ['u', '\u0300']), ('ú', ['u', '\u0301']), ('û', ['u', '\u0302']),
   ('ü', ['u', '\u0308']), ('ý', ['y', '\u0301']), ('ÿ', ['y', '\u0308']),
   ('À', ['A', '\u0300']), ('Á', ['A', '\u0301']), ('Â', ['A', '\u0302']),
   ('Ã', ['A', '\u0303']), ('Ä', ['A', '\u0308']), ('Å', ['A', '\u030A']),
   ('Ç', ['C', '\u0327']), ('È', ['E', '\u0300']), ('É', ['E', '\u0301']),
   ('Ê', ['E', '\u0302']), ('Ë', ['E', '\u0308']), ('Ì', ['I', '\u0300']),
   ('Í', ['I', '\u0301']), ('Î', ['I', '\u0302']), ('Ï', ['I', '\u0308']),
   ('Ñ', ['N', '\u0303']), ('Ò', ['O', '\u0300']), ('Ó', ['O', '\u0301']),
   ('Ô', ['O', '\u0302']), ('Õ', ['O', '\u0303']), ('Ö', ['O', '\u0308']),
   ('Ù', ['U', '\u0300']), ('Ú', ['U', '\u0301']), ('Û', ['U', '\u0302']),
   ('Ü', ['U', '\u0308']), ('Ý', ['Y', '\u0301'])]

/-- Embedding of `normalize('NFD')` on one character. -/
def nfdDecompose (c : Char) : List Char := (alookup nfdTable c).getD [c]

/-- Embedding of the `\p{Diacritic}` class on the characters produced by
`nfdDecompose`: the combining diacritical marks block U+0300–U+036F. -/
def isDiacritic (c : Char) : Bool := 0x300 ≤ c.toNat && c.toNat ≤ 0x36F

/-- Embedding of the `\p{Punctuation}` class (Unicode general category P)
restricted to ASCII.  Note `$ + < = > ^ | ~` and the backtick are Symbols,
not Punctuation, and are deliberately absent. -/
def isPunct (c : Char) : Bool :=
  c ∈ ['!', '"', '#', '%', '&', '\'', '(', ')', '*', ',', '-', '.', '/',
       ':', ';', '?', '@', '[', '\\', ']', '_', '\x7b', '\x7d']

/-- Embedding of the `\s` regex class and of the character set removed by
`String.prototype.trim` (JS WhiteSpace plus LineTerminator). -/
def isJsWs (c : Char) : Bool :=
  c = '\t' || c = '\n' || c = '\u000B' || c = '\u000C' || c = '\r' ||
  c = ' ' || c = '\u00A0' || c = '\u1680' ||
  (0x2000 ≤ c.toNat && c.toNat ≤ 0x200A) ||
  c = '\u2028' || c = '\u2029' || c = '\u202F' || c = '\u205F' ||
  c = '\u3000' || c = '\uFEFF'

/-- Lowercasing stage of `normalize`: `toLowerCase()`. -/
def jsLowerL (l : List Char) : List Char := l.map jsToLower

/-- Both-ends trimming stage: `trim()`. -/
def trimL (l : List Char) : List Char :=
  ((l.dropWhile (fun c => isJsWs c)).reverse.dropWhile (fun c => isJsWs c)).reverse

/-- Diacritic removal stage: `normalize('NFD').replace(/\p{Diacritic}/gu, '')`. -/
def nfdStripL (l : List Char) : List Char :=
  (l.flatMap nfdDecompose).filter (fun c => !isDiacritic c)

/-- Punctuation replacement stage: `replace(/[\p{Punctuation}]/gu, ' ')`. -/
def punctToSpaceL (l : List Char) : List Char :=
  l.map (fun c => if isPunct c then ' ' else c)

/-- Whitespace collapsing stage: `replace(/\s+/g, ' ')` — every maximal run
of whitespace becomes a single space.  The flag records whether the previous
character belonged to a run that has already emitted its space. -/
def collapseWsAux : Bool → List Char → List Char
  | _, [] => []
  | prevWs, c :: rest =>
    if isJsWs c then
      if prevWs then collapseWsAux true rest
      else ' ' :: collapseWsAux true rest
    else c :: collapseWsAux false rest

/-- Whitespace collapsing stage, entry point. -/
def collapseWs (l : List Char) : List Char := collapseWsAux false l

/-- Embedding of `HTUAssistant.normalize` on the character list of a string:
lowercase, trim, strip diacritics after NFD, punctuation to spaces, collapse
whitespace, trim. -/
def normalizeChars (l : List Char) : List Char :=
  trimL (collapseWs (punctToSpaceL (nfdStripL (trimL (jsLowerL l)))))

/-- Embedding of `HTUAssistant.normalize` on strings. -/
def normalize (s : String) : String := ⟨normalizeChars s.data⟩

/-- Embedding of `HTUAssistant.normalize` including the falsy-input guard
`if (!text && text !== 0) return ''`; `none` stands for `null`/`undefined`
input. -/
def jsNormalize : Option String → String
  | none => ""
  | some s => if s = "" then "" else normalize s

/-- A character that every stage of `normalize` leaves alone. -/
def stableChar (c : Char) : Bool :=
  jsToLower c == c && nfdDecompose c == [c] && !isDiacritic c && !isPunct c

/-- A character whose whitespace status is canonical: if it is whitespace at
all, it is the plain space character. -/
def wsOkChar (c : Char) : Bool := !isJsWs c || c == ' '

/-- Adjacent-pair relation of a whitespace-collapsed list: no two consecutive
whitespace characters. -/
def noWsRun (a b : Char) : Prop := isJsWs a = true → isJsWs b = false

/-- Invariant satisfied by the output of `normalizeChars`. -/
def canonOut (l : List Char) : Prop :=
  (∀ c ∈ l, stableChar c = true ∧ wsOkChar c = true) ∧
  l.Chain' noWsRun ∧
  (∀ c ∈ l.head?, isJsWs c = false) ∧
  (∀ c ∈ l.getLast?, isJsWs c = false)

theorem alookup_mem {α β : Type} [DecidableEq α] {l : List (α × β)} {c : α}
    {v : β} (h : alookup l c = some v) : (c, v) ∈ l := by
  induction l with
  | nil => simp [alookup] at h
  | cons p t ih =>
    obtain ⟨k, w⟩ := p
    by_cases hc : c = k
    · subst hc
      simp [alookup] at h
      simp [h]
    · simp [alookup, hc] at h
      exact List.mem_cons_of_mem _ (ih h)

theorem lower_values_ok :
    ∀ p ∈ lowerTable, ∀ d ∈ nfdDecompose p.2, isDiacritic d = false →
      stableChar (if isPunct d then ' ' else d) = true := by decide

theorem nfd_values_ok :
    ∀ p ∈ nfdTable, alookup lowerTable p.1 = none → ∀ d ∈ p.2,
      isDiacritic d = false → stableChar (if isPunct d then ' ' else d) = true := by
  decide

/-- Central character-level fact: any non-diacritic character produced by
lowercasing then NFD-decomposing an arbitrary character becomes stable once
punctuation is replaced by a space. -/
theorem charStable (c : Char) :
    ∀ d ∈ nfdDecompose (jsToLower c), isDiacritic d = false →
      stableChar (if isPunct d then ' ' else d) = true := by
  intro d hd hdia
  unfold jsToLower at hd
  cases h1 : alookup lowerTable c with
  | some v =>
    rw [h1] at hd
    exact lower_values_ok _ (alookup_mem h1) d hd hdia
  | none =>
    rw [h1] at hd
    simp only [Option.getD_none] at hd
    unfold nfdDecompose at hd
    cases h2 : alookup nfdTable c with
    | some w =>
      rw [h2] at hd
      exact nfd_values_ok _ (alookup_mem h2) h1 d hd hdia
    | none =>
      rw [h2] at hd
      simp only [Option.getD_none, List.mem_singleton] at hd
      subst hd
      by_cases hp : isPunct d = true
      · rw [if_pos hp]; decide
      · simp only [Bool.not_eq_true] at hp
        simp only [hp, if_false]
        simp [stableChar, jsToLower, nfdDecompose, h1, h2, hp, hdia]

theorem mem_trimL {c : Char} {l : List Char} (h : c ∈ trimL l) : c ∈ l := by
  unfold trimL at h
  have h1 := List.mem_reverse.mp h
  have h2 := (List.dropWhile_suffix _).subset h1
  have h3 := List.mem_reverse.mp h2
  exact (List.dropWhile_suffix _).subset h3

theorem trimL_within (l : List Char) : trimL l <:+: l := by
  unfold trimL
  have h1 : l.dropWhile (fun c => isJsWs c) <:+ l := List.dropWhile_suffix _
  have h2 : ((l.dropWhile (fun c => isJsWs c)).reverse.dropWhile
      (fun c => isJsWs c)).reverse <+: l.dropWhile (fun c => isJsWs c) := by
    rw [← List.reverse_suffix]
    simp only [List.reverse_reverse]
    exact List.dropWhile_suffix _
  exact h2.isInfix.trans h1.isInfix

theorem head?_dropWhile {p : Char → Bool} {l : List Char} {c : Char}
    (h : (l.dropWhile p).head? = some c) : p c = false := by
  induction l with
  | nil => simp [List.dropWhile] at h
  | cons a t ih =>
    by_cases hp : p a = true
    · rw [List.dropWhile_cons_of_pos hp] at h
      exact ih h
    · rw [List.dropWhile_cons_of_neg hp] at h
      simp at h
      subst h
      simpa using hp

theorem dropWhile_eq_self_of_head {p : Char → Bool} {l : List Char}
    (h : ∀ c ∈ l.head?, p c = false) : l.dropWhile p = l := by
  cases l with
  | nil => simp
  | cons a t =>
    have := h a (by simp)
    simp [List.dropWhile_cons, this]

theorem trimL_eq_self {l : List Char}
    (hh : ∀ c ∈ l.head?, isJsWs c = false)
    (hl : ∀ c ∈ l.getLast?, isJsWs c = false) : trimL l = l := by
  unfold trimL
  rw [dropWhile_eq_self_of_head hh]
  rw [dropWhile_eq_self_of_head (by simpa [List.head?_reverse] using hl)]
  simp

theorem flatMap_eq_self {f : Char → List Char} {l : List Char}
    (h : ∀ c ∈ l, f c = [c]) : l.flatMap f = l := by
  induction l with
  | nil => simp
  | cons a t ih =>
    rw [List.flatMap_cons, h a (by simp), ih (fun c hc => h c (List.mem_cons_of_mem _ hc))]
    rfl

theorem stableChar_parts {c : Char} (h : stableChar c = true) :
    jsToLower c = c ∧ nfdDecompose c = [c] ∧ isDiacritic c = false ∧
      isPunct c = false := by
  simp only [stableChar, Bool.and_eq_true, beq_iff_eq, Bool.not_eq_true'] at h
  exact ⟨h.1.1.1, h.1.1.2, h.1.2, h.2⟩

theorem nfdStripL_eq_self {l : List Char}
    (h : ∀ c ∈ l, stableChar c = true) : nfdStripL l = l := by
  unfold nfdStripL
  rw [flatMap_eq_self (fun c hc => (stableChar_parts (h c hc)).2.1)]
  rw [List.filter_eq_self.mpr (fun c hc => by
    simp [(stableChar_parts (h c hc)).2.2.1])]

theorem punctToSpaceL_eq_self {l : List Char}
    (h : ∀ c ∈ l, stableChar c = true) : punctToSpaceL l = l := by
  unfold punctToSpaceL
  rw [List.map_congr_left (g := id) (fun c hc => by
    simp [(stableChar_parts (h c hc)).2.2.2])]
  exact List.map_id l

theorem collapseWsAux_true_eq_false {l : List Char}
    (h : ∀ c ∈ l.head?, isJsWs c = false) :
    collapseWsAux true l = collapseWsAux false l := by
  cases l with
  | nil => rfl
  | cons a t =>
    have := h a (by simp)
    simp [collapseWsAux, this]

theorem collapseWs_eq_self {l : List Char}
    (hws : ∀ c ∈ l, wsOkChar c = true) (hch : l.Chain' noWsRun) :
    collapseWs l = l := by
  unfold collapseWs
  induction l with
  | nil => rfl
  | cons a t ih =>
    rw [List.chain'_cons'] at hch
    by_cases ha : isJsWs a = true
    · have haSp : a = ' ' := by
        have := hws a (by simp)
        simp [wsOkChar, ha] at this
        exact this
      have hnext : ∀ c ∈ t.head?, isJsWs c = false := by
        intro c hc
        exact hch.1 c hc ha
      have hstep : collapseWsAux false (a :: t) = ' ' :: collapseWsAux true t := by
        simp [collapseWsAux, ha]
      rw [hstep, collapseWsAux_true_eq_false hnext]
      rw [ih (fun c hc => hws c (List.mem_cons_of_mem _ hc)) hch.2]
      rw [haSp]
    · simp only [Bool.not_eq_true] at ha
      have hstep : collapseWsAux false (a :: t) = a :: collapseWsAux false t := by
        simp [collapseWsAux, ha]
      rw [hstep]
      rw [ih (fun c hc => hws c (List.mem_cons_of_mem _ hc)) hch.2]

/-- Identity of `normalizeChars` on canonical output. -/
theorem normalizeChars_eq_self {l : List Char} (h : canonOut l) :
    normalizeChars l = l := by
  obtain ⟨hst, hch, hh, hl⟩ := h
  unfold normalizeChars
  have h1 : jsLowerL l = l := by
    unfold jsLowerL
    rw [List.map_congr_left (g := id) (fun c hc => by
      simp [(stableChar_parts (hst c hc).1).1])]
    exact List.map_id l
  rw [h1, trimL_eq_self hh hl]
  rw [nfdStripL_eq_self (fun c hc => (hst c hc).1)]
  rw [punctToSpaceL_eq_self (fun c hc => (hst c hc).1)]
  rw [collapseWs_eq_self (fun c hc => (hst c hc).2) hch]
  exact trimL_eq_self hh hl

theorem stage1_stable {l : List Char} :
    ∀ c ∈ punctToSpaceL (nfdStripL (trimL (jsLowerL l))), stableChar c = true := by
  intro c hc
  unfold punctToSpaceL at hc
  obtain ⟨d, hd, rfl⟩ := List.mem_map.mp hc
  unfold nfdStripL at hd
  have hd' := List.mem_filter.mp hd
  obtain ⟨e, he, hde⟩ := List.mem_flatMap.mp hd'.1
  have he2 : e ∈ jsLowerL l := mem_trimL he
  obtain ⟨c0, _, rfl⟩ := List.mem_map.mp he2
  exact charStable c0 d hde (by simpa using hd'.2)

theorem collapse_good {m : List Char} (h : ∀ c ∈ m, stableChar c = true) :
    ∀ f, (∀ c ∈ collapseWsAux f m, stableChar c = true ∧ wsOkChar c = true) ∧
      (collapseWsAux f m).Chain' noWsRun ∧
      (f = true → ∀ c ∈ (collapseWsAux f m).head?, isJsWs c = false) := by
  induction m with
  | nil => intro f; refine ⟨by simp [collapseWsAux], by simp [collapseWsAux], ?_⟩
           intro _ c hc; simp [collapseWsAux] at hc
  | cons a t ih =>
    have ht : ∀ c ∈ t, stableChar c = true :=
      fun c hc => h c (List.mem_cons_of_mem _ hc)
    intro f
    by_cases ha : isJsWs a = true
    · cases f with
      | true =>
        have hstep : collapseWsAux true (a :: t) = collapseWsAux true t := by
          simp [collapseWsAux, ha]
        rw [hstep]
        exact (ih ht true)
      | false =>
        have hstep : collapseWsAux false (a :: t) = ' ' :: collapseWsAux true t := by
          simp [collapseWsAux, ha]
        rw [hstep]
        refine ⟨?_, ?_, ?_⟩
        · intro c hc
          rcases List.mem_cons.mp hc with rfl | hc'
          · exact ⟨by decide, by decide⟩
          · exact (ih ht true).1 c hc'
        · rw [List.chain'_cons']
          refine ⟨?_, (ih ht true).2.1⟩
          intro y hy
          intro _
          exact (ih ht true).2.2 rfl y hy
        · intro hf; cases hf
    · have hstep : ∀ g, collapseWsAux g (a :: t) = a :: collapseWsAux false t := by
        intro g
        simp only [Bool.not_eq_true] at ha
        cases g <;> simp [collapseWsAux, ha]
      rw [hstep f]
      simp only [Bool.not_eq_true] at ha
      refine ⟨?_, ?_, ?_⟩
      · intro c hc
        rcases List.mem_cons.mp hc with rfl | hc'
        · exact ⟨h c (by simp), by simp [wsOkChar, ha]⟩
        · exact (ih ht false).1 c hc'
      · rw [List.chain'_cons']
        refine ⟨?_, (ih ht false).2.1⟩
        intro y _ hws
        rw [ha] at hws
        cases hws
      · intro _ c hc
        simp at hc
        rw [hc] at ha
        exact ha

theorem isPrefix_head? {l₁ l₂ : List Char} (h : l₁ <+: l₂) (hne : l₁ ≠ []) :
    l₁.head? = l₂.head? := by
  obtain ⟨t, rfl⟩ := h
  cases l₁ with
  | nil => exact absurd rfl hne
  | cons a s => simp

theorem trimL_head? {m : List Char} :
    ∀ c ∈ (trimL m).head?, isJsWs c = false := by
  intro c hc
  by_cases hne : trimL m = []
  · rw [hne] at hc; simp at hc
  · have hpre : trimL m <+: m.dropWhile (fun c => isJsWs c) := by
      unfold trimL
      rw [← List.reverse_suffix]
      simp only [List.reverse_reverse]
      exact List.dropWhile_suffix _
    rw [isPrefix_head? hpre hne] at hc
    exact head?_dropWhile hc

theorem trimL_getLast? {m : List Char} :
    ∀ c ∈ (trimL m).getLast?, isJsWs c = false := by
  intro c hc
  unfold trimL at hc
  rw [List.getLast?_reverse] at hc
  exact head?_dropWhile hc

/-- The output of `normalizeChars` satisfies the canonical-output invariant. -/
theorem canon_normalizeChars (l : List Char) : canonOut (normalizeChars l) := by
  unfold normalizeChars
  set X := punctToSpaceL (nfdStripL (trimL (jsLowerL l))) with hX
  have hstable : ∀ c ∈ X, stableChar c = true := stage1_stable
  have hcol := collapse_good hstable false
  refine ⟨?_, ?_, trimL_head?, trimL_getLast?⟩
  · intro c hc
    exact hcol.1 c (mem_trimL hc)
  · exact List.Chain'.infix hcol.2.1 (trimL_within _)

/-- Idempotence of the core normalization on character lists. -/
theorem normalizeChars_idem (l : List Char) :
    normalizeChars (normalizeChars l) = normalizeChars l :=
  normalizeChars_eq_self (canon_normalizeChars l)

/-- C5: `normalize` is idempotent and total: for every input (a string, or
`none` standing for `null`/`undefined`/absent), `normalize (normalize x)`
equals `normalize x`, and `normalize` always returns a string — the empty
string for `null`/`undefined`/absent input — without raising. -/
theorem C5_normalize_idempotent_total :
    (∀ x : Option String, jsNormalize (some (jsNormalize x)) = jsNormalize x) ∧
    jsNormalize none = "" := by
  refine ⟨?_, rfl⟩
  intro x
  match x with
  | none => rfl
  | some s =>
    by_cases hs : s = ""
    · simp [jsNormalize, hs]
    · simp only [jsNormalize, hs, if_false]
      by_cases hv : normalize s = ""
      · simp [hv, jsNormalize]
      · simp only [hv, if_false]
        show (⟨normalizeChars (String.mk (normalizeChars s.data)).data⟩ : String) = _
        exact congrArg String.mk (normalizeChars_idem s.data)

/-- Row `i + 1` of the Levenshtein dynamic program of
`HTUAssistant.calculateSimilarity`, given row `i` as `prev`: the source's
recurrence (`matrix[i][0] = i`, equal chars copy the diagonal, otherwise
`1 + min(diagonal, left, up)`). -/
def levNext (str1 str2 : List Char) (i : Nat) (prev : Nat → Nat) : Nat → Nat
  | 0 => i + 1
  | j + 1 =>
    if str2.getD i ' ' = str1.getD j ' ' then prev j
    else
      min (prev j + 1)
        (min (levNext str1 str2 i prev j + 1) (prev (j + 1) + 1))

/-- Entry `matrix[i][j]` of the Levenshtein dynamic program built by
`HTUAssistant.calculateSimilarity`: `i` indexes prefixes of `str2`, `j`
prefixes of `str1` (`matrix[0][j] = j`), each row derived from the previous
one exactly as in the source's doubly nested fill loop. -/
def levEntry (str1 str2 : List Char) : Nat → Nat → Nat
  | 0 => fun j => j
  | i + 1 => levNext str1 str2 i (levEntry str1 str2 i)

/-- Embedding of `HTUAssistant.calculateSimilarity`: Levenshtein distance
converted to the ratio `(maxLen - distance) / maxLen`.  JS numbers are
embedded as rationals. -/
def calculateSimilarity (str1 str2 : String) : ℚ :=
  let len1 := str1.length
  let len2 := str2.length
  if len1 = 0 then (if len2 = 0 then 1 else 0)
  else if len2 = 0 then 0
  else
    let maxLen := max len1 len2
    if maxLen = 0 then 1
    else ((maxLen : ℚ) - (levEntry str1.data str2.data len2 len1 : ℚ)) / (maxLen : ℚ)

/-- The greedy inner loop of the `jaroWinkler` match scan: the first index
`j` of `s2` in the window `[start, fin)` that is not yet matched and whose
character equals `c` (the source's `for (let j = start; j < end; j++)`). -/
def findMatch (s2 : List Char) (s2M : List Bool) (c : Char) (start fin : Nat) :
    Option Nat :=
  (List.range s2.length).find? (fun j =>
    decide (start ≤ j) && decide (j < fin) && !(s2M.getD j false) &&
      (s2.getD j ' ' == c))

/-- State of the `jaroWinkler` match scan: the two boolean match masks and
the match counter. -/
structure JWScan where
  s1M : List Bool
  s2M : List Bool
  matchesN : Nat
deriving DecidableEq

/-- The match scan of `HTUAssistant.jaroWinkler`: for each `i` of `s1` in
order, claim the first unmatched equal character of `s2` within the window
of width `matchDistance = floor(max(len1,len2)/2) - 1` (an `Int`, since it
is `-1` for single-character strings). -/
def jwStep (s1 s2 : List Char) (md : Int) (st : JWScan) (i : Nat) : JWScan :=
  let start : Nat := (max 0 (Int.ofNat i - md)).toNat
  let fin : Nat := (min (Int.ofNat i + md + 1) (s2.length : Int)).toNat
  match findMatch s2 st.s2M (s1.getD i ' ') start fin with
  | some j => ⟨st.s1M.set i true, st.s2M.set j true, st.matchesN + 1⟩
  | none => st

/-- The match scan itself: fold `jwStep` over the indices of `s1`. -/
def jwScan (s1 s2 : List Char) : JWScan :=
  (List.range s1.length).foldl
    (jwStep s1 s2 ((↑(max s1.length s2.length / 2) : Int) - 1))
    ⟨List.replicate s1.length false, List.replicate s2.length false, 0⟩

/-- The characters of `s` at matched positions, in order — what the
source's transposition pointer walk (`while (!s2Matches[k]) k++`) pairs up. -/
def matchedChars (s : List Char) (m : List Bool) : List Char :=
  (s.zip m).filterMap (fun p => if p.2 then some p.1 else none)

/-- Raw transposition count of `jaroWinkler` (before the halving): the
number of positions where the matched subsequences of `s1` and `s2`
disagree. -/
def jwTransRaw (s1 s2 : List Char) (st : JWScan) : Nat :=
  ((matchedChars s1 st.s1M).zip (matchedChars s2 st.s2M)).countP
    (fun p => p.1 != p.2)

/-- The Winkler common-prefix length: shared leading characters of `s1` and
`s2`, capped at 4. -/
def jwPfx (s1 s2 : List Char) : Nat :=
  (((s1.zip s2).take 4).takeWhile (fun p => p.1 == p.2)).length

/-- Embedding of `HTUAssistant.jaroWinkler`.  The JS float literal `0.1` is
embedded as the rational `1/10`. -/
def jaroWinkler (t1 t2 : String) : ℚ :=
  if t1 = "" ∨ t2 = "" then 0
  else
    let s1 := t1.data
    let s2 := t2.data
    let st := jwScan s1 s2
    if st.matchesN = 0 then 0
    else
      let mF : ℚ := st.matchesN
      let tr : ℚ := (jwTransRaw s1 s2 st : ℚ) / 2
      let jaro := (mF / s1.length + mF / s2.length + (mF - tr) / mF) / 3
      jaro + (jwPfx s1 s2 : ℚ) * (1 / 10) * (1 - jaro)

/-- Splitting on the space character, JS `split(' ')` semantics: every
space is a separator and empty segments are kept. -/
def splitOnSpace : List Char → List (List Char)
  | [] => [[]]
  | c :: rest =>
    if c = ' ' then [] :: splitOnSpace rest
    else
      match splitOnSpace rest with
      | [] => [[c]]
      | seg :: segs => (c :: seg) :: segs

/-- Token split used throughout the source: `.split(' ').filter(Boolean)`. -/
def splitTokens (s : String) : List String :=
  ((splitOnSpace s.data).filter (fun t => t ≠ [])).map (fun l => (⟨l⟩ : String))

/-- Embedding of `HTUAssistant.tokenSimilarity`: normalize both sides, and
average, over the tokens of the first side, the best `jaroWinkler` score of
each such token against the tokens of the second side. -/
def tokenSimilarity (a b : String) : ℚ :=
  let na := splitTokens (normalize a)
  let nb := splitTokens (normalize b)
  if na.length = 0 ∨ nb.length = 0 then 0
  else
    let total := na.foldl
      (fun total tokenA =>
        total + nb.foldl (fun best tokenB => max best (jaroWinkler tokenA tokenB)) 0)
      0
    total / na.length

theorem levEntry_self_diag (l : List Char) : ∀ n, levEntry l l n n = 0 := by
  intro n
  induction n with
  | zero => rfl
  | succ k ih =>
    show levNext l l k (levEntry l l k) (k + 1) = 0
    unfold levNext
    rw [if_pos rfl]
    exact ih

/-- Reflexivity of the Levenshtein ratio on nonempty strings. -/
theorem calculateSimilarity_self {s : String} (h : s ≠ "") :
    calculateSimilarity s s = 1 := by
  have hlen : s.length ≠ 0 := by
    intro h0
    exact h (String.ext (List.length_eq_zero.mp h0))
  simp only [calculateSimilarity, hlen, if_false, max_self, if_neg hlen,
    levEntry_self_diag, Nat.cast_zero, sub_zero]
  exact div_self (by exact_mod_cast hlen)

/-- The all-or-nothing match mask after `k` steps of the scan over a string
of length `n`. -/
def jwMask (n k : Nat) : List Bool :=
  List.replicate k true ++ List.replicate (n - k) false

theorem getD_replicate (a d : Bool) : ∀ n j, (List.replicate n a).getD j d =
    if j < n then a else d := by
  intro n
  induction n with
  | zero => intro j; simp
  | succ m ih =>
    intro j
    cases j with
    | zero => simp [List.replicate_succ]
    | succ i =>
      rw [List.replicate_succ, List.getD_cons_succ, ih i]
      simp [Nat.succ_lt_succ_iff]

theorem getD_jwMask {n k : Nat} (hk : k ≤ n) (j : Nat) :
    (jwMask n k).getD j false = decide (j < k) := by
  unfold jwMask
  by_cases hj : j < k
  · rw [List.getD_append _ _ _ _ (by simpa using hj)]
    simp [getD_replicate, hj]
  · rw [List.getD_append_right _ _ _ _ (by simpa using Nat.le_of_not_lt hj)]
    simp only [List.length_replicate]
    rw [getD_replicate]
    simp [hj]

theorem set_append_cons (v b : Bool) : ∀ (l r : List Bool),
    (l ++ b :: r).set l.length v = l ++ v :: r := by
  intro l
  induction l with
  | nil => intro r; rfl
  | cons a t ih => intro r; simp [List.set, ih]

theorem jwMask_set {n k : Nat} (hk : k < n) :
    (jwMask n k).set k true = jwMask n (k + 1) := by
  unfold jwMask
  have h1 : n - k = (n - (k + 1)) + 1 := by omega
  rw [h1, List.replicate_succ]
  have h3 := set_append_cons true false (List.replicate k true)
    (List.replicate (n - (k + 1)) false)
  rw [List.length_replicate] at h3
  rw [h3, List.replicate_succ' k true]
  simp

theorem find?_range'_some {p : Nat → Bool} :
    ∀ (m s k : Nat), s ≤ k → k < s + m →
      (∀ j, s ≤ j → j < k → p j = false) → p k = true →
      (List.range' s m).find? p = some k := by
  intro m
  induction m with
  | zero => intro s k h1 h2; omega
  | succ m ih =>
    intro s k h1 h2 hbelow hk
    rw [List.range'_succ]
    by_cases hs : k = s
    · subst hs
      exact List.find?_cons_of_pos _ hk
    · have hlt : s < k := Nat.lt_of_le_of_ne h1 (fun h => hs h.symm)
      rw [List.find?_cons_of_neg _ (by simp [hbelow s le_rfl hlt])]
      exact ih (s + 1) k hlt (by omega) (fun j hj1 hj2 => hbelow j (by omega) hj2) hk

theorem find?_range_some {p : Nat → Bool} {n k : Nat} (hk : k < n)
    (hbelow : ∀ j < k, p j = false) (hp : p k = true) :
    (List.range n).find? p = some k := by
  rw [List.range_eq_range']
  exact find?_range'_some n 0 k (Nat.zero_le k) (by omega)
    (fun j _ hj => hbelow j hj) hp

/-- One step of the self-scan: step `k` of the fold claims exactly slot `k`
of the mask and increments the counter. -/
theorem jwScan_self_step {s : List Char} {k : Nat} (h2 : 2 ≤ s.length)
    (hk : k < s.length) :
    jwStep s s ((↑(max s.length s.length / 2) : Int) - 1)
      ⟨jwMask s.length k, jwMask s.length k, k⟩ k =
      ⟨jwMask s.length (k + 1), jwMask s.length (k + 1), k + 1⟩ := by
  have hmd : (0 : Int) ≤ (↑(max s.length s.length / 2) : Int) - 1 := by
    have : 1 ≤ s.length / 2 := (Nat.one_le_div_iff (by norm_num)).mpr h2
    rw [max_self]
    omega
  set md : Int := (↑(max s.length s.length / 2) : Int) - 1 with hmddef
  have hfound : findMatch s (jwMask s.length k) (s.getD k ' ')
      ((max 0 (Int.ofNat k - md)).toNat)
      ((min (Int.ofNat k + md + 1) (s.length : Int)).toNat) = some k := by
    have hstart : (max 0 (Int.ofNat k - md)).toNat ≤ k := by
      have h1 : (max 0 (Int.ofNat k - md)) ≤ Int.ofNat k := by
        rw [max_le_iff]
        exact ⟨Int.ofNat_nonneg k, by omega⟩
      calc (max 0 (Int.ofNat k - md)).toNat ≤ (Int.ofNat k).toNat :=
            Int.toNat_le_toNat h1
      _ = k := rfl
    have hfin : k < (min (Int.ofNat k + md + 1) (s.length : Int)).toNat := by
      have h1 : (Int.ofNat (k + 1)) ≤ min (Int.ofNat k + md + 1) (s.length : Int) := by
        rw [le_min_iff]
        constructor
        · simp only [Int.ofNat_eq_coe]; push_cast; omega
        · simp only [Int.ofNat_eq_coe]; push_cast; omega
      have h0 : (0 : Int) ≤ min (Int.ofNat k + md + 1) (s.length : Int) :=
        le_trans (Int.ofNat_nonneg (k + 1)) h1
      have := (Int.le_toNat h0).mpr h1
      omega
    unfold findMatch
    apply find?_range_some hk
    · intro j hj
      rw [getD_jwMask (Nat.le_of_lt hk) j]
      simp [hj]
    · rw [getD_jwMask (Nat.le_of_lt hk) k, decide_eq_true hstart,
        decide_eq_true hfin]
      simp
  unfold jwStep
  simp only [hfound]
  rw [jwMask_set hk]

/-- After the whole scan over identical strings of length at least 2, every
position of both masks is matched. -/
theorem jwScan_self {s : List Char} (h2 : 2 ≤ s.length) :
    jwScan s s = ⟨List.replicate s.length true, List.replicate s.length true,
      s.length⟩ := by
  have haux : ∀ k ≤ s.length,
      (List.range k).foldl (jwStep s s ((↑(max s.length s.length / 2) : Int) - 1))
        ⟨List.replicate s.length false, List.replicate s.length false, 0⟩ =
      ⟨jwMask s.length k, jwMask s.length k, k⟩ := by
    intro k
    induction k with
    | zero =>
      intro _
      simp [jwMask]
    | succ m ih =>
      intro hm
      rw [List.range_succ, List.foldl_append, ih (by omega)]
      simp only [List.foldl_cons, List.foldl_nil]
      exact jwScan_self_step h2 (by omega)
  have hfin := haux s.length le_rfl
  unfold jwScan
  rw [hfin]
  have hmask : jwMask s.length s.length = List.replicate s.length true := by
    unfold jwMask
    simp
  rw [hmask]

theorem matchedChars_all_true : ∀ s : List Char,
    matchedChars s (List.replicate s.length true) = s := by
  intro s
  induction s with
  | nil => rfl
  | cons a t ih =>
    unfold matchedChars at ih ⊢
    rw [List.length_cons, List.replicate_succ, List.zip_cons_cons,
      List.filterMap_cons]
    rw [ih]
    simp

theorem mem_zip_self {s : List Char} {p : Char × Char} (h : p ∈ s.zip s) :
    p.1 = p.2 := by
  induction s with
  | nil => simp at h
  | cons a t ih =>
    rw [List.zip_cons_cons] at h
    rcases List.mem_cons.mp h with rfl | h'
    · rfl
    · exact ih h'

/-- Reflexivity of the prefix-weighted score on strings of length at least
two.  (Single-character strings are excluded: the match window is empty.) -/
theorem jaroWinkler_self {s : String} (h2 : 2 ≤ s.length) :
    jaroWinkler s s = 1 := by
  have hne : ¬(s = "" ∨ s = "") := by
    intro h
    rcases h with h | h <;> (subst h; simp [String.length] at h2)
  have hlen : s.length = s.data.length := rfl
  rw [hlen] at h2
  have hscan := jwScan_self h2
  have hn0 : (s.data.length : ℚ) ≠ 0 := by
    have hx : s.data.length ≠ 0 := by omega
    exact_mod_cast hx
  simp only [jaroWinkler, hne, if_false, hscan]
  have htrans : jwTransRaw s.data s.data
      ⟨List.replicate s.data.length true, List.replicate s.data.length true,
        s.data.length⟩ = 0 := by
    unfold jwTransRaw
    simp only [matchedChars_all_true]
    rw [List.countP_eq_zero]
    intro p hp
    simp [mem_zip_self hp]
  rw [htrans]
  have hm0 : s.data.length ≠ 0 := by omega
  simp only [hm0, if_false, Nat.cast_zero, zero_div, sub_zero]
  have hjaro : ((s.data.length : ℚ) / (s.data.length : ℚ) +
      (s.data.length : ℚ) / (s.data.length : ℚ) +
      (s.data.length : ℚ) / (s.data.length : ℚ)) / 3 = 1 := by
    rw [div_self hn0]
    norm_num
  rw [hjaro]
  ring

/-- C2 (amended): the edit-distance ratio is reflexive on every nonempty
string, and the prefix-weighted score is reflexive on every string of length
at least 2 (single-character strings give 0, not 1, because the match window
`floor(len/2) - 1 = -1` is empty). -/
theorem C2_similarity_reflexivity_amended :
    (∀ s : String, s ≠ "" → calculateSimilarity s s = 1) ∧
    (∀ s : String, 2 ≤ s.length → jaroWinkler s s = 1) :=
  ⟨fun _ h => calculateSimilarity_self h, fun _ h => jaroWinkler_self h⟩

/-- C2 (counterexample): on the single-character string `"a"` the
prefix-weighted score of the code is 0, not the 1.0 the claim requires
(the edit-distance ratio is indeed 1). -/
theorem C2_jaroWinkler_single_char_counterexample :
    jaroWinkler "a" "a" = 0 ∧ jaroWinkler "a" "a" ≠ 1 ∧
      calculateSimilarity "a" "a" = 1 := by
  refine ⟨by decide, by decide, calculateSimilarity_self (by decide)⟩

/-- C2 witness: the amended reflexivity theorem applied at the concrete
inputs `"a"` (Levenshtein) and `"ab"` (Jaro-Winkler). -/
theorem C2_similarity_reflexivity_amended_witness :
    calculateSimilarity "a" "a" = 1 ∧ jaroWinkler "ab" "ab" = 1 :=
  ⟨C2_similarity_reflexivity_amended.1 "a" (by decide),
   C2_similarity_reflexivity_amended.2 "ab" (by decide)⟩

/-- Closed-form evaluation of `jaroWinkler` from a computed scan state,
transposition count and prefix length. -/
theorem jaroWinkler_eval (t1 t2 : String) (s1M s2M : List Bool) (m tr p : Nat)
    (hne : ¬(t1 = "" ∨ t2 = "")) (hm : m ≠ 0)
    (hscan : jwScan t1.data t2.data = ⟨s1M, s2M, m⟩)
    (htr : jwTransRaw t1.data t2.data ⟨s1M, s2M, m⟩ = tr)
    (hp : jwPfx t1.data t2.data = p) :
    jaroWinkler t1 t2 =
      ((m : ℚ) / t1.data.length + (m : ℚ) / t2.data.length +
          ((m : ℚ) - (tr : ℚ) / 2) / (m : ℚ)) / 3 +
        (p : ℚ) * (1 / 10) *
          (1 - ((m : ℚ) / t1.data.length + (m : ℚ) / t2.data.length +
            ((m : ℚ) - (tr : ℚ) / 2) / (m : ℚ)) / 3) := by
  simp only [jaroWinkler, hne, if_false, hscan, htr, hp, hm]

theorem jw_mohammad_al : jaroWinkler "mohammad" "al" = 13 / 24 := by
  rw [jaroWinkler_eval "mohammad" "al"
    [false, false, false, true, false, false, false, false] [true, false] 1 0 0
    (by decide) (by decide) (by decide) (by decide) (by decide)]
  rw [show ("mohammad".data.length) = 8 from rfl, show ("al".data.length) = 2 from rfl]
  norm_num

theorem jw_mohammad_rashid : jaroWinkler "mohammad" "rashid" = 37 / 72 := by
  rw [jaroWinkler_eval "mohammad" "rashid"
    [false, false, true, true, false, false, false, true]
    [false, true, false, true, false, true] 3 2 0
    (by decide) (by decide) (by decide) (by decide) (by decide)]
  rw [show ("mohammad".data.length) = 8 from rfl, show ("rashid".data.length) = 6 from rfl]
  norm_num

theorem jw_al_rashid : jaroWinkler "al" "rashid" = 5 / 9 := by
  rw [jaroWinkler_eval "al" "rashid"
    [true, false] [false, true, false, false, false, false] 1 0 0
    (by decide) (by decide) (by decide) (by decide) (by decide)]
  rw [show ("al".data.length) = 2 from rfl, show ("rashid".data.length) = 6 from rfl]
  norm_num

theorem jw_rashid_al : jaroWinkler "rashid" "al" = 5 / 9 := by
  rw [jaroWinkler_eval "rashid" "al"
    [false, true, false, false, false, false] [true, false] 1 0 0
    (by decide) (by decide) (by decide) (by decide) (by decide)]
  rw [show ("rashid".data.length) = 6 from rfl, show ("al".data.length) = 2 from rfl]
  norm_num

theorem foldl_add_map {α : Type} (f : α → ℚ) (l : List α) :
    ∀ a : ℚ, l.foldl (fun t x => t + f x) a = a + (l.map f).sum := by
  induction l with
  | nil => intro a; simp
  | cons x xs ih =>
    intro a
    rw [List.foldl_cons, ih (a + f x), List.map_cons, List.sum_cons]
    ring

/-- C9: token-aware similarity of `"Mohammad Al Rashid"` and `"Al Rashid"`
exceeds 0.8; and in general `tokenSimilarity` normalizes both inputs, takes
for each token of the first sequence the best prefix-weighted score against
any token of the second, averages over the first sequence's token count, and
returns 0 when either side has no tokens after normalization. -/
theorem C9_token_similarity :
    tokenSimilarity "Mohammad Al Rashid" "Al Rashid" > 8 / 10 ∧
    (∀ a b : String,
      tokenSimilarity a b =
        if splitTokens (normalize a) = [] ∨ splitTokens (normalize b) = [] then 0
        else
          ((splitTokens (normalize a)).map (fun tokenA =>
              ((splitTokens (normalize b)).map
                (fun tokenB => jaroWinkler tokenA tokenB)).foldl max 0)).sum /
            (splitTokens (normalize a)).length) := by
  constructor
  · have hna : splitTokens (normalize "Mohammad Al Rashid") =
        ["mohammad", "al", "rashid"] := by decide
    have hnb : splitTokens (normalize "Al Rashid") = ["al", "rashid"] := by decide
    simp only [tokenSimilarity, hna, hnb, List.length_cons, List.length_nil,
      List.foldl_cons, List.foldl_nil]
    norm_num [jw_mohammad_al, jw_mohammad_rashid, jw_al_rashid, jw_rashid_al,
      jaroWinkler_self (show 2 ≤ ("al" : String).length by decide),
      jaroWinkler_self (show 2 ≤ ("rashid" : String).length by decide),
      max_def]
  · intro a b
    simp only [tokenSimilarity]
    by_cases hab : splitTokens (normalize a) = [] ∨ splitTokens (normalize b) = []
    · have hlen : (splitTokens (normalize a)).length = 0 ∨
          (splitTokens (normalize b)).length = 0 := by
        rcases hab with h | h <;> simp [h]
      simp only [hab, if_true]
      rw [if_pos hlen]
    · have hlen : ¬((splitTokens (normalize a)).length = 0 ∨
          (splitTokens (normalize b)).length = 0) := by
        rcases not_or.mp hab with ⟨h1, h2⟩
        simp [List.length_eq_zero, h1, h2]
      simp only [hab, if_false]
      rw [if_neg hlen, foldl_add_map, zero_add]
      simp only [List.foldl_map]

/-- String-level `trim()`. -/
def jsTrimStr (s : String) : String := ⟨trimL s.data⟩

/-- String-level `toLowerCase()`. -/
def jsLowerStr (s : String) : String := ⟨jsLowerL s.data⟩

/-- `String.prototype.startsWith`. -/
def startsWithB (s pre : String) : Bool := pre.data.isPrefixOf s.data

/-- Contiguous-substring test on character lists (`String.prototype.includes`). -/
def containsSeg (hay sub : List Char) : Bool :=
  match hay with
  | [] => sub.isEmpty
  | _ :: t => sub.isPrefixOf hay || containsSeg t sub

/-- `String.prototype.includes`. -/
def includesB (s sub : String) : Bool := containsSeg s.data sub.data

/-- `Math.round` on a nonnegative JS number: round half toward `+∞`. -/
def jsRound (q : ℚ) : Nat := (q + 1 / 2).floor.toNat

/-- The result cap `config.MAX_RESULTS` (default 10). -/
def MAX_RESULTS : Nat := 10

/-- A `Person` record as consumed by `HTUAssistant.search`; a missing or
falsy field is embedded as the empty string, which the code treats the same
way. -/
structure Doctor where
  name : String
  department : String
  office : String
  school : String
  email : String
deriving DecidableEq

/-- Shorthand for a doctor record with only a name (other fields absent). -/
def mkDoctor (n : String) : Doctor := ⟨n, "", "", "", ""⟩

/-- The transient scored match of `search` (`{doctor, score, matchedFields,
normName}`; the matched-field tags do not influence ranking and are not
modelled). -/
structure ScoredDoctor where
  doctor : Doctor
  score : Nat
  normName : String
deriving DecidableEq

/-- Every query token is a `startsWith` of the corresponding name token
(the source's `allPrefix` loop). -/
def allTokensPfx : List String → List String → Bool
  | [], _ => true
  | _ :: _, [] => false
  | q :: qs, n :: ns => startsWithB n q && allTokensPfx qs ns

/-- The outcome of the mutually exclusive name-matching cascade of
`search`, in the source's priority order. -/
inductive NameBranch
  | exactN
  | startN
  | tokensPfx
  | containsN
  | fuzzyN
  | noneN
deriving DecidableEq

/-- Which branch of the name cascade fires for a (query, name) pair:
(1) exact normalized equality (with truthy name), (2) whole-name or
first-token start, (3) all query tokens are positional token starts,
(4) substring containment, (5) combined fuzzy similarity above 0.70,
else none. -/
def nameBranchOf (normQuery : String) (queryTokens : List String)
    (normName : String) (nameTokens : List String) : NameBranch :=
  if normName ≠ "" ∧ normName = normQuery then .exactN
  else if startsWithB normName normQuery ||
      (match queryTokens, nameTokens with
       | q0 :: _, t0 :: _ => startsWithB t0 q0
       | _, _ => false) then .startN
  else if queryTokens ≠ [] ∧ allTokensPfx queryTokens nameTokens then .tokensPfx
  else if includesB normName normQuery then .containsN
  else if max (tokenSimilarity normName normQuery)
      (calculateSimilarity normName normQuery) > 7 / 10 then .fuzzyN
  else .noneN

/-- The name-cascade score contribution of `search` (350 / 220 / 200 / 90 /
`round(80·combined)`). -/
def nameScoreOf (normQuery : String) (queryTokens : List String)
    (normName : String) (nameTokens : List String) : Nat :=
  match nameBranchOf normQuery queryTokens normName nameTokens with
  | .exactN => 350
  | .startN => 220
  | .tokensPfx => 200
  | .containsN => 90
  | .fuzzyN => jsRound (80 * max (tokenSimilarity normName normQuery)
      (calculateSimilarity normName normQuery))
  | .noneN => 0

/-- The total score `search` assigns to one doctor record: the name cascade
plus the independent secondary-field bonuses (department 100/60, office
80/30, school 25, email 10). -/
def scoreDoctor (searchTerm normQuery : String) (queryTokens : List String)
    (d : Doctor) : Nat :=
  let name := jsTrimStr d.name
  let normName := normalize name
  let nameTokens := splitTokens normName
  let dept := jsTrimStr d.department
  let office := jsTrimStr d.office
  let school := jsTrimStr d.school
  let email := jsTrimStr d.email
  nameScoreOf normQuery queryTokens normName nameTokens +
  (if dept ≠ "" ∧ jsLowerStr dept = searchTerm then 100
   else if dept ≠ "" ∧ includesB (jsLowerStr dept) searchTerm then 60 else 0) +
  (if office ≠ "" ∧ jsLowerStr office = searchTerm then 80
   else if office ≠ "" ∧ includesB (jsLowerStr office) searchTerm then 30 else 0) +
  (if school ≠ "" ∧ includesB (jsLowerStr school) searchTerm then 25 else 0) +
  (if email ≠ "" ∧ includesB (jsLowerStr email) searchTerm then 10 else 0)

/-- In-place value replacement at an existing key, preserving position — the
behaviour of `Map.prototype.set` on a present key. -/
def updAssoc {γ : Type} : List (String × γ) → String → γ → List (String × γ)
  | [], k, r => [(k, r)]
  | (k', v) :: t, k, r =>
    if k = k' then (k', r) :: t else (k', v) :: updAssoc t k r

/-- One step of the deduplication loop
(`if (!prev || r.score > prev.score) bestByName.set(key, r)`): a new key is
appended at the end (`Map` insertion order), a better score replaces the
value in place. -/
def dedupStep {γ : Type} (key : γ → String) (score : γ → Nat)
    (m : List (String × γ)) (r : γ) : List (String × γ) :=
  match alookup m (key r) with
  | none => m ++ [(key r, r)]
  | some prev => if score r > score prev then updAssoc m (key r) r else m

/-- The whole deduplication pass over the scored results. -/
def dedupFold {γ : Type} (key : γ → String) (score : γ → Nat)
    (rs : List γ) : List (String × γ) :=
  rs.foldl (dedupStep key score) []

/-- Stable insertion into a descending-sorted list: an element goes before
the first element of not-greater score, matching the unique stable order of
`sort((a, b) => b.score - a.score)`. -/
def insertDesc {γ : Type} (score : γ → Nat) (r : γ) : List γ → List γ
  | [] => [r]
  | x :: xs => if score x > score r then x :: insertDesc score r xs else r :: x :: xs

/-- Stable descending sort by score (the behaviour of the ES2019-stable
`Array.prototype.sort` under the source's comparator). -/
def sortDesc {γ : Type} (score : γ → Nat) : List γ → List γ
  | [] => []
  | x :: xs => insertDesc score x (sortDesc score xs)

/-- The dedup key of a scored doctor:
`r.normName || this.normalize(r.doctor.name || '')`. -/
def keyOfScored (r : ScoredDoctor) : String :=
  if r.normName = "" then normalize r.doctor.name else r.normName

/-- The lowercased trimmed query (`searchTerm`). -/
def searchTermOf (query : String) : String := jsLowerStr (jsTrimStr query)

/-- The normalized query (`normQuery`). -/
def normQueryOf (query : String) : String := normalize (searchTermOf query)

/-- The query tokens (`queryTokens`). -/
def queryTokensOf (query : String) : List String := splitTokens (normQueryOf query)

/-- The scored candidate list of `search` (its `results` array): every
doctor with a positive score, in collection order. -/
def searchResults (doctors : List Doctor) (query : String) : List ScoredDoctor :=
  doctors.filterMap (fun d =>
    let score := scoreDoctor (searchTermOf query) (normQueryOf query)
      (queryTokensOf query) d
    if score > 0 then some ⟨d, score, normalize (jsTrimStr d.name)⟩ else none)

/-- The deduplicated candidates of `search`, in `Map` value order. -/
def dedupVals (doctors : List Doctor) (query : String) : List ScoredDoctor :=
  (dedupFold keyOfScored ScoredDoctor.score (searchResults doctors query)).map
    Prod.snd

/-- Embedding of `HTUAssistant.search`: guard short queries, score every
record, drop zero scores, deduplicate by canonical name key, sort by
descending score (stable) and truncate to `MAX_RESULTS`. -/
def search (doctors : List Doctor) (query : String) : List Doctor :=
  if query = "" ∨ (jsTrimStr query).length < 2 then []
  else
    ((sortDesc ScoredDoctor.score (dedupVals doctors query)).take
      MAX_RESULTS).map (fun r => r.doctor)

/-- A `Club` record: the fields `'Club/ Volunteer team'` (`team`),
`'Name of it '` (`name`), `'The email'`, the Instagram link and the
description (`about`). -/
structure Club where
  team : String
  name : String
  email : String
  instagram : String
  about : String
deriving DecidableEq

/-- The transient scored match of `searchClubs`. -/
structure ScoredClub where
  club : Club
  score : Nat
  normClubName : String
deriving DecidableEq

/-- The name-cascade score contribution of `searchClubs` (300 / 180 / 160 /
80 / `round(70·combined)`); unlike `search` there is no truthiness guard on
the exact branch. -/
def clubNameScoreOf (normQuery : String) (queryTokens : List String)
    (normClubName : String) (clubNameTokens : List String) : Nat :=
  if normClubName = normQuery then 300
  else if startsWithB normClubName normQuery ||
      (match queryTokens, clubNameTokens with
       | q0 :: _, t0 :: _ => startsWithB t0 q0
       | _, _ => false) then 180
  else if allTokensPfx queryTokens clubNameTokens ∧ queryTokens ≠ [] then 160
  else if includesB normClubName normQuery then 80
  else if max (tokenSimilarity normClubName normQuery)
      (calculateSimilarity normClubName normQuery) > 7 / 10 then
    jsRound (70 * max (tokenSimilarity normClubName normQuery)
      (calculateSimilarity normClubName normQuery))
  else 0

/-- The total score `searchClubs` assigns to one club record: name cascade
plus type (80/50) and description (30) bonuses. -/
def scoreClub (searchTerm normQuery : String) (queryTokens : List String)
    (c : Club) : Nat :=
  let normClubName := normalize c.name
  let clubNameTokens := splitTokens normClubName
  let clubType := jsLowerStr c.team
  clubNameScoreOf normQuery queryTokens normClubName clubNameTokens +
  (if clubType = searchTerm then 80
   else if includesB clubType searchTerm then 50 else 0) +
  (if c.about ≠ "" ∧ includesB (jsLowerStr c.about) searchTerm then 30 else 0)

/-- The dedup key of a scored club:
`r.normClubName || this.normalize(r.club['Name of it '] || '')`. -/
def keyOfScoredClub (r : ScoredClub) : String :=
  if r.normClubName = "" then normalize r.club.name else r.normClubName

/-- The scored candidate list of `searchClubs`. -/
def clubResults (clubs : List Club) (query : String) : List ScoredClub :=
  clubs.filterMap (fun c =>
    let score := scoreClub (searchTermOf query) (normQueryOf query)
      (queryTokensOf query) c
    if score > 0 then some ⟨c, score, normalize c.name⟩ else none)

/-- The deduplicated club candidates, in `Map` value order. -/
def clubDedupVals (clubs : List Club) (query : String) : List ScoredClub :=
  (dedupFold keyOfScoredClub ScoredClub.score (clubResults clubs query)).map
    Prod.snd

/-- Embedding of `HTUAssistant.searchClubs`. -/
def searchClubs (clubs : List Club) (query : String) : List Club :=
  if query = "" ∨ (jsTrimStr query).length < 2 then []
  else
    ((sortDesc ScoredClub.score (clubDedupVals clubs query)).take
      MAX_RESULTS).map (fun r => r.club)

/-- Embedding of `HTUAssistant.searchClubsAll`: despite its name and doc
comment, the body is just `return this.searchClubs(query)`. -/
def searchClubsAll (clubs : List Club) (query : String) : List Club :=
  searchClubs clubs query

theorem alookup_none_forall {α β : Type} [DecidableEq α] {m : List (α × β)}
    {k : α} (h : alookup m k = none) : ∀ p ∈ m, p.1 ≠ k := by
  induction m with
  | nil => simp
  | cons q t ih =>
    obtain ⟨k', v⟩ := q
    intro p hp
    rcases List.mem_cons.mp hp with rfl | hp'
    · intro hk
      simp only at hk
      simp [alookup, hk] at h
    · by_cases hk : k = k'
      · simp [alookup, hk] at h
      · simp only [alookup, hk, if_false] at h
        exact ih h p hp'

theorem alookup_some_mem {γ : Type} {m : List (String × γ)} {k : String}
    {v : γ} (h : alookup m k = some v) : (k, v) ∈ m := alookup_mem h

theorem updAssoc_fst_of_mem {γ : Type} {k : String} (r : γ) :
    ∀ m : List (String × γ), k ∈ m.map Prod.fst →
      (updAssoc m k r).map Prod.fst = m.map Prod.fst := by
  intro m
  induction m with
  | nil => simp
  | cons q t ih =>
    obtain ⟨k', v⟩ := q
    intro hk
    by_cases he : k = k'
    · simp [updAssoc, he]
    · simp only [List.map_cons, List.mem_cons] at hk
      rcases hk with h | h
      · exact absurd h he
      · simp [updAssoc, he, ih h]

theorem mem_updAssoc {γ : Type} {k : String} {r : γ} {p : String × γ} :
    ∀ {m : List (String × γ)}, (m.map Prod.fst).Nodup →
      p ∈ updAssoc m k r → p = (k, r) ∨ (p ∈ m ∧ p.1 ≠ k) := by
  intro m
  induction m with
  | nil =>
    intro _ hp
    simp [updAssoc] at hp
    simp [hp]
  | cons q t ih =>
    obtain ⟨k', v⟩ := q
    intro hnd hp
    by_cases he : k = k'
    · subst he
      simp only [updAssoc, if_pos rfl] at hp
      rcases List.mem_cons.mp hp with rfl | hp'
      · exact Or.inl rfl
      · right
        refine ⟨List.mem_cons_of_mem _ hp', ?_⟩
        simp only [List.map_cons, List.nodup_cons] at hnd
        intro hk
        have hmm2 : p.1 ∈ t.map Prod.fst := List.mem_map_of_mem Prod.fst hp'
        rw [hk] at hmm2
        exact hnd.1 hmm2
    · simp only [updAssoc, if_neg he] at hp
      rcases List.mem_cons.mp hp with rfl | hp'
      · exact Or.inr ⟨List.mem_cons_self _ _, by simpa using fun h => he h.symm⟩
      · simp only [List.map_cons, List.nodup_cons] at hnd
        rcases ih hnd.2 hp' with h | h
        · exact Or.inl h
        · exact Or.inr ⟨List.mem_cons_of_mem _ h.1, h.2⟩

theorem key_unique_mem {γ : Type} {m : List (String × γ)} {k : String}
    {v : γ} (hnd : (m.map Prod.fst).Nodup) (hv : (k, v) ∈ m)
    {p : String × γ} (hp : p ∈ m) (hk : p.1 = k) : p = (k, v) := by
  induction m with
  | nil => simp at hv
  | cons q t ih =>
    simp only [List.map_cons, List.nodup_cons] at hnd
    rcases List.mem_cons.mp hv with rfl | hv'
    · rcases List.mem_cons.mp hp with rfl | hp'
      · rfl
      · have hmm2 : p.1 ∈ t.map Prod.fst := List.mem_map_of_mem Prod.fst hp'
        rw [hk] at hmm2
        exact absurd hmm2 hnd.1
    · rcases List.mem_cons.mp hp with rfl | hp'
      · subst hk
        exact absurd (List.mem_map_of_mem Prod.fst hv') (by simpa using hnd.1)
      · exact ih hnd.2 hv' hp'

theorem updAssoc_mem_self {γ : Type} {k : String} (r : γ) :
    ∀ m : List (String × γ), k ∈ m.map Prod.fst → (k, r) ∈ updAssoc m k r := by
  intro m
  induction m with
  | nil => simp
  | cons q t ih =>
    obtain ⟨k', v⟩ := q
    intro hk
    by_cases he : k = k'
    · subst he
      simp [updAssoc]
    · simp only [List.map_cons, List.mem_cons] at hk
      rcases hk with h | h
      · exact absurd h he
      · simp only [updAssoc, if_neg he]
        exact List.mem_cons_of_mem _ (ih h)

theorem updAssoc_mem_other {γ : Type} {k : String} (r : γ) {p : String × γ} :
    ∀ {m : List (String × γ)}, p ∈ m → p.1 ≠ k → p ∈ updAssoc m k r := by
  intro m
  induction m with
  | nil => simp
  | cons q t ih =>
    obtain ⟨k', v⟩ := q
    intro hp hne
    by_cases he : k = k'
    · subst he
      simp only [updAssoc, if_pos rfl]
      rcases List.mem_cons.mp hp with rfl | hp'
      · exact absurd rfl hne
      · exact List.mem_cons_of_mem _ hp'
    · simp only [updAssoc, if_neg he]
      rcases List.mem_cons.mp hp with rfl | hp'
      · exact List.mem_cons_self _ _
      · exact List.mem_cons_of_mem _ (ih hp' hne)

/-- The running invariant of the deduplication fold: keys are distinct, each
entry is keyed by its own canonical key and comes from the processed input,
every processed candidate's key is present, and each entry's score dominates
every processed candidate with the same key. -/
def DedupInv {γ : Type} (key : γ → String) (score : γ → Nat)
    (rs : List γ) (m : List (String × γ)) : Prop :=
  (m.map Prod.fst).Nodup ∧
  (∀ p ∈ m, key p.2 = p.1 ∧ p.2 ∈ rs) ∧
  (∀ r ∈ rs, ∃ p ∈ m, p.1 = key r) ∧
  (∀ p ∈ m, ∀ r ∈ rs, key r = p.1 → score r ≤ score p.2)

theorem dedupStep_inv {γ : Type} (key : γ → String) (score : γ → Nat)
    {rs : List γ} {m : List (String × γ)} (h : DedupInv key score rs m)
    (r : γ) : DedupInv key score (rs ++ [r]) (dedupStep key score m r) := by
  obtain ⟨hnd, hmem, hcomp, hmax⟩ := h
  unfold dedupStep
  cases hl : alookup m (key r) with
  | none =>
    have hknew := alookup_none_forall hl
    refine ⟨?_, ?_, ?_, ?_⟩
    · rw [List.map_append]
      rw [List.nodup_append]
      refine ⟨hnd, by simp, ?_⟩
      intro a ha hb
      simp only [List.map_cons, List.map_nil, List.mem_singleton] at hb
      subst hb
      obtain ⟨p, hp, hpa⟩ := List.mem_map.mp ha
      exact hknew p hp hpa
    · intro p hp
      rcases List.mem_append.mp hp with hp' | hp'
      · obtain ⟨h1, h2⟩ := hmem p hp'
        exact ⟨h1, List.mem_append_left _ h2⟩
      · simp only [List.mem_singleton] at hp'
        subst hp'
        exact ⟨rfl, List.mem_append_right _ (by simp)⟩
    · intro r' hr'
      rcases List.mem_append.mp hr' with hr'' | hr''
      · obtain ⟨p, hp, hpk⟩ := hcomp r' hr''
        exact ⟨p, List.mem_append_left _ hp, hpk⟩
      · simp only [List.mem_singleton] at hr''
        refine ⟨(key r, r), List.mem_append_right _ (by simp), ?_⟩
        rw [hr'']
    · intro p hp r' hr' hk
      rcases List.mem_append.mp hp with hp' | hp'
      · rcases List.mem_append.mp hr' with hr'' | hr''
        · exact hmax p hp' r' hr'' hk
        · simp only [List.mem_singleton] at hr''
          rw [hr''] at hk
          exact absurd hk.symm (hknew p hp')
      · simp only [List.mem_singleton] at hp'
        subst hp'
        rcases List.mem_append.mp hr' with hr'' | hr''
        · obtain ⟨q, hq, hqk⟩ := hcomp r' hr''
          simp only at hk
          rw [hk] at hqk
          exact absurd hqk (hknew q hq)
        · simp only [List.mem_singleton] at hr''
          rw [hr'']
  | some prev =>
    have hprevmem : (key r, prev) ∈ m := alookup_some_mem hl
    by_cases hgt : score r > score prev
    · simp only [if_pos hgt]
      have hkeys : (updAssoc m (key r) r).map Prod.fst = m.map Prod.fst :=
        updAssoc_fst_of_mem r m (List.mem_map_of_mem Prod.fst hprevmem)
      refine ⟨hkeys ▸ hnd, ?_, ?_, ?_⟩
      · intro p hp
        rcases mem_updAssoc hnd hp with rfl | ⟨hpm, _⟩
        · exact ⟨rfl, List.mem_append_right _ (by simp)⟩
        · obtain ⟨h1, h2⟩ := hmem p hpm
          exact ⟨h1, List.mem_append_left _ h2⟩
      · intro r' hr'
        rcases List.mem_append.mp hr' with hr'' | hr''
        · obtain ⟨p, hp, hpk⟩ := hcomp r' hr''
          by_cases hke : p.1 = key r
          · refine ⟨(key r, r),
              updAssoc_mem_self r m (List.mem_map_of_mem Prod.fst hprevmem), ?_⟩
            show key r = key r'
            rw [← hke]
            exact hpk
          · exact ⟨p, updAssoc_mem_other r hp hke, hpk⟩
        · simp only [List.mem_singleton] at hr''
          refine ⟨(key r, r),
            updAssoc_mem_self r m (List.mem_map_of_mem Prod.fst hprevmem), ?_⟩
          rw [hr'']
      · intro p hp r' hr' hk
        rcases mem_updAssoc hnd hp with rfl | ⟨hpm, hpne⟩
        · simp only at hk
          rcases List.mem_append.mp hr' with hr'' | hr''
          · exact le_trans (hmax _ hprevmem r' hr'' hk) (le_of_lt hgt)
          · simp only [List.mem_singleton] at hr''
            rw [hr'']
        · rcases List.mem_append.mp hr' with hr'' | hr''
          · exact hmax p hpm r' hr'' hk
          · simp only [List.mem_singleton] at hr''
            rw [hr''] at hk
            exact absurd hk.symm hpne
    · simp only [if_neg hgt]
      refine ⟨hnd, ?_, ?_, ?_⟩
      · intro p hp
        obtain ⟨h1, h2⟩ := hmem p hp
        exact ⟨h1, List.mem_append_left _ h2⟩
      · intro r' hr'
        rcases List.mem_append.mp hr' with hr'' | hr''
        · obtain ⟨p, hp, hpk⟩ := hcomp r' hr''
          exact ⟨p, hp, hpk⟩
        · simp only [List.mem_singleton] at hr''
          refine ⟨(key r, prev), hprevmem, ?_⟩
          rw [hr'']
      · intro p hp r' hr' hk
        rcases List.mem_append.mp hr' with hr'' | hr''
        · exact hmax p hp r' hr'' hk
        · simp only [List.mem_singleton] at hr''
          rw [hr''] at hk ⊢
          have hpv := key_unique_mem hnd hprevmem hp hk.symm
          rw [hpv]
          exact Nat.le_of_not_lt hgt

theorem dedupFold_inv {γ : Type} (key : γ → String) (score : γ → Nat)
    (rs : List γ) : DedupInv key score rs (dedupFold key score rs) := by
  induction rs using List.reverseRecOn with
  | nil => exact ⟨by simp [dedupFold], by simp [dedupFold], by simp, by simp [dedupFold]⟩
  | append_singleton rs r ih =>
    unfold dedupFold at ih ⊢
    rw [List.foldl_append, List.foldl_cons, List.foldl_nil]
    exact dedupStep_inv key score ih r

theorem insertDesc_perm {γ : Type} (score : γ → Nat) (r : γ) :
    ∀ l : List γ, List.Perm (insertDesc score r l) (r :: l) := by
  intro l
  induction l with
  | nil => exact List.Perm.refl _
  | cons x xs ih =>
    unfold insertDesc
    by_cases h : score x > score r
    · rw [if_pos h]
      exact (ih.cons x).trans (List.Perm.swap r x xs)
    · rw [if_neg h]

theorem sortDesc_perm {γ : Type} (score : γ → Nat) :
    ∀ l : List γ, List.Perm (sortDesc score l) l := by
  intro l
  induction l with
  | nil => exact List.Perm.refl _
  | cons x xs ih =>
    exact (insertDesc_perm score x (sortDesc score xs)).trans (ih.cons x)

theorem insertDesc_sorted {γ : Type} (score : γ → Nat) (r : γ) :
    ∀ {l : List γ}, l.Pairwise (fun a b => score b ≤ score a) →
      (insertDesc score r l).Pairwise (fun a b => score b ≤ score a) := by
  intro l
  induction l with
  | nil => intro _; simp [insertDesc]
  | cons x xs ih =>
    intro hs
    rw [List.pairwise_cons] at hs
    unfold insertDesc
    by_cases h : score x > score r
    · rw [if_pos h]
      rw [List.pairwise_cons]
      refine ⟨?_, ih hs.2⟩
      intro b hb
      have := (insertDesc_perm score r xs).mem_iff.mp hb
      rcases List.mem_cons.mp this with rfl | hb'
      · exact le_of_lt h
      · exact hs.1 b hb'
    · rw [if_neg h]
      rw [List.pairwise_cons]
      refine ⟨?_, List.pairwise_cons.mpr hs⟩
      intro b hb
      rcases List.mem_cons.mp hb with rfl | hb'
      · exact Nat.le_of_not_lt h
      · exact le_trans (hs.1 b hb') (Nat.le_of_not_lt h)

theorem sortDesc_sorted {γ : Type} (score : γ → Nat) :
    ∀ l : List γ, (sortDesc score l).Pairwise (fun a b => score b ≤ score a) := by
  intro l
  induction l with
  | nil => simp [sortDesc]
  | cons x xs ih => exact insertDesc_sorted score x ih

theorem insertDesc_filter_score {γ : Type} (score : γ → Nat) (r : γ)
    (v : Nat) : ∀ l : List γ,
    (insertDesc score r l).filter (fun x => score x == v) =
      if score r = v then r :: l.filter (fun x => score x == v)
      else l.filter (fun x => score x == v) := by
  intro l
  induction l with
  | nil =>
    by_cases h : score r = v
    · simp [insertDesc, List.filter_cons, h]
    · simp [insertDesc, List.filter_cons, h]
  | cons x xs ih =>
    unfold insertDesc
    by_cases hxr : score x > score r
    · rw [if_pos hxr, List.filter_cons, ih, List.filter_cons]
      by_cases hx : score x = v
      · have hr : ¬score r = v := by omega
        simp [hx, hr, List.filter_cons]
      · by_cases hr : score r = v
        · simp [hx, hr, List.filter_cons]
        · simp [hx, hr]
    · rw [if_neg hxr, List.filter_cons]
      by_cases hr : score r = v
      · simp [hr]
      · simp [hr]

theorem sortDesc_filter_score {γ : Type} (score : γ → Nat) (v : Nat) :
    ∀ l : List γ,
    (sortDesc score l).filter (fun x => score x == v) =
      l.filter (fun x => score x == v) := by
  intro l
  induction l with
  | nil => rfl
  | cons x xs ih =>
    show (insertDesc score x (sortDesc score xs)).filter _ = _
    rw [insertDesc_filter_score, ih, List.filter_cons]
    by_cases hx : score x = v
    · simp [hx]
    · simp [hx]

theorem pipe_mem {γ δ : Type} (key : γ → String) (score : γ → Nat)
    (f : γ → δ) (results : List γ) {d : δ}
    (h : d ∈ ((sortDesc score ((dedupFold key score results).map
      Prod.snd)).take MAX_RESULTS).map f) :
    ∃ r ∈ results, f r = d ∧
      ∀ r' ∈ results, key r' = key r → score r' ≤ score r := by
  obtain ⟨x, hx, rfl⟩ := List.mem_map.mp h
  have hx2 : x ∈ sortDesc score ((dedupFold key score results).map Prod.snd) :=
    List.take_subset _ _ hx
  have hx3 : x ∈ (dedupFold key score results).map Prod.snd :=
    (sortDesc_perm score _).subset hx2
  obtain ⟨p, hp, rfl⟩ := List.mem_map.mp hx3
  have inv := dedupFold_inv key score results
  obtain ⟨hk, hmemIn⟩ := inv.2.1 p hp
  refine ⟨p.2, hmemIn, rfl, ?_⟩
  intro r' hr' hkey
  exact inv.2.2.2 p hp r' hr' (by rw [hkey, hk])

theorem pipe_mem_results {γ δ : Type} (key : γ → String) (score : γ → Nat)
    (f : γ → δ) (results : List γ) {x : γ}
    (h : x ∈ (sortDesc score ((dedupFold key score results).map
      Prod.snd)).take MAX_RESULTS) : x ∈ results := by
  have hx3 : x ∈ (dedupFold key score results).map Prod.snd :=
    (sortDesc_perm score _).subset (List.take_subset _ _ h)
  obtain ⟨p, hp, rfl⟩ := List.mem_map.mp hx3
  exact ((dedupFold_inv key score results).2.1 p hp).2

theorem pipe_pairwise_key {γ δ : Type} (key : γ → String) (score : γ → Nat)
    (f : γ → δ) (results : List γ) (g : δ → String)
    (hg : ∀ r ∈ results, key r = g (f r)) :
    (((sortDesc score ((dedupFold key score results).map Prod.snd)).take
      MAX_RESULTS).map f).Pairwise (fun a b => g a ≠ g b) := by
  have inv := dedupFold_inv key score results
  have hnd := inv.1
  have hfst : (dedupFold key score results).map Prod.fst =
      ((dedupFold key score results).map Prod.snd).map key := by
    rw [List.map_map]
    exact List.map_congr_left (fun p hp => ((inv.2.1 p hp).1).symm)
  rw [hfst] at hnd
  have h1 : ((dedupFold key score results).map Prod.snd).Pairwise
      (fun a b => key a ≠ key b) := List.pairwise_map.mp hnd
  have h2 : (sortDesc score ((dedupFold key score results).map
      Prod.snd)).Pairwise (fun a b => key a ≠ key b) :=
    ((sortDesc_perm score _).pairwise_iff (fun hxy he => hxy he.symm)).mpr h1
  have h3 := h2.sublist (List.take_sublist MAX_RESULTS _)
  rw [List.pairwise_map]
  apply h3.imp_of_mem
  intro a b ha hb hne
  rw [← hg a (pipe_mem_results key score f results ha),
    ← hg b (pipe_mem_results key score f results hb)]
  exact hne

theorem pipe_sorted {γ δ : Type} (key : γ → String) (score : γ → Nat)
    (f : γ → δ) (results : List γ) (sc : δ → Nat)
    (hsc : ∀ r ∈ results, score r = sc (f r)) :
    (((sortDesc score ((dedupFold key score results).map Prod.snd)).take
      MAX_RESULTS).map f).Pairwise (fun a b => sc b ≤ sc a) := by
  have h2 := sortDesc_sorted score ((dedupFold key score results).map Prod.snd)
  have h3 := h2.sublist (List.take_sublist MAX_RESULTS _)
  rw [List.pairwise_map]
  apply h3.imp_of_mem
  intro a b ha hb hle
  rw [← hsc a (pipe_mem_results key score f results ha),
    ← hsc b (pipe_mem_results key score f results hb)]
  exact hle

theorem searchResults_mem {ds : List Doctor} {q : String} {r : ScoredDoctor}
    (h : r ∈ searchResults ds q) :
    r.doctor ∈ ds ∧
      r.score = scoreDoctor (searchTermOf q) (normQueryOf q)
        (queryTokensOf q) r.doctor ∧
      0 < r.score ∧ r.normName = normalize (jsTrimStr r.doctor.name) := by
  unfold searchResults at h
  obtain ⟨d, hd, hr⟩ := List.mem_filterMap.mp h
  simp only at hr
  by_cases hpos : scoreDoctor (searchTermOf q) (normQueryOf q)
      (queryTokensOf q) d > 0
  · rw [if_pos hpos] at hr
    obtain rfl := Option.some.inj hr
    exact ⟨hd, rfl, hpos, rfl⟩
  · rw [if_neg hpos] at hr
    cases hr

theorem searchResults_mem_of {ds : List Doctor} {q : String} {d : Doctor}
    (hd : d ∈ ds)
    (hpos : 0 < scoreDoctor (searchTermOf q) (normQueryOf q)
      (queryTokensOf q) d) :
    (⟨d, scoreDoctor (searchTermOf q) (normQueryOf q) (queryTokensOf q) d,
      normalize (jsTrimStr d.name)⟩ : ScoredDoctor) ∈ searchResults ds q := by
  unfold searchResults
  apply List.mem_filterMap.mpr
  exact ⟨d, hd, by simp only [if_pos hpos]⟩

/-- The canonical dedup key the code computes for a doctor record. -/
def docKey (d : Doctor) : String :=
  if normalize (jsTrimStr d.name) = "" then normalize d.name
  else normalize (jsTrimStr d.name)

theorem keyOfScored_eq_docKey {r : ScoredDoctor}
    (h : r.normName = normalize (jsTrimStr r.doctor.name)) :
    keyOfScored r = docKey r.doctor := by
  unfold keyOfScored docKey
  rw [h]

theorem keyOfScored_mk (d : Doctor) (sc : Nat) :
    keyOfScored ⟨d, sc, normalize (jsTrimStr d.name)⟩ = docKey d :=
  keyOfScored_eq_docKey rfl

/-- The name-cascade branch the code selects for a doctor under a query. -/
def docBranch (q : String) (d : Doctor) : NameBranch :=
  nameBranchOf (normQueryOf q) (queryTokensOf q)
    (normalize (jsTrimStr d.name)) (splitTokens (normalize (jsTrimStr d.name)))

theorem score_of_exact {q : String} {d : Doctor}
    (h : docBranch q d = .exactN) :
    350 ≤ scoreDoctor (searchTermOf q) (normQueryOf q) (queryTokensOf q) d := by
  unfold docBranch at h
  unfold scoreDoctor nameScoreOf
  simp only [h]
  omega

theorem score_of_contains {q : String} {d : Doctor}
    (h : docBranch q d = .containsN) :
    scoreDoctor (searchTermOf q) (normQueryOf q) (queryTokensOf q) d ≤ 305 := by
  unfold docBranch at h
  unfold scoreDoctor nameScoreOf
  simp only [h]
  split_ifs <;> omega

theorem search_pairwise_score (ds : List Doctor) (q : String) :
    (search ds q).Pairwise (fun a b =>
      scoreDoctor (searchTermOf q) (normQueryOf q) (queryTokensOf q) b ≤
      scoreDoctor (searchTermOf q) (normQueryOf q) (queryTokensOf q) a) := by
  unfold search
  by_cases hg : q = "" ∨ (jsTrimStr q).length < 2
  · simp [hg]
  · rw [if_neg hg]
    unfold dedupVals
    exact pipe_sorted keyOfScored ScoredDoctor.score (fun r => r.doctor)
      (searchResults ds q) _
      (fun r hr => (searchResults_mem hr).2.1)

/-- C4: in every search ordering, a record whose normalized name exactly
equals the normalized query (cascade branch 1, worth at least 350) appears
strictly before every record matched only by name containment (branch 4,
worth at most 90 + 215 = 305 even with all secondary bonuses); and on the
two-record instance from the spec, the query `"Omar"` ranks the exact match
`"Omar"` above `"Omar Khalil"`. -/
theorem C4_exact_name_outranks_containment :
    (∀ (doctors : List Doctor) (query : String) (i j : Nat)
      (hi : i < (search doctors query).length)
      (hj : j < (search doctors query).length),
      docBranch query ((search doctors query).get ⟨i, hi⟩) = .exactN →
      docBranch query ((search doctors query).get ⟨j, hj⟩) = .containsN →
      i < j) ∧
    search [⟨"Omar Khalil", "Computer Science", "", "", ""⟩,
        ⟨"Omar", "Civil", "", "", ""⟩] "Omar" =
      [⟨"Omar", "Civil", "", "", ""⟩,
       ⟨"Omar Khalil", "Computer Science", "", "", ""⟩] := by
  constructor
  · intro ds q i j hi hj hex hct
    rcases lt_trichotomy i j with h | h | h
    · exact h
    · subst h
      rw [hex] at hct
      cases hct
    · exfalso
      have hpw := List.pairwise_iff_get.mp (search_pairwise_score ds q)
        ⟨j, hj⟩ ⟨i, hi⟩ h
      have h1 := score_of_exact hex
      have h2 := score_of_contains hct
      omega
  · decide

/-- C4 witness: the ordering theorem applied at a concrete search where the
first result is an exact name match and the second a containment match:
query `"mar"` over records named `"Omar"` and `"Mar"`. -/
theorem C4_exact_name_outranks_containment_witness :
    (0 : Nat) < 1 :=
  C4_exact_name_outranks_containment.1 [mkDoctor "Omar", mkDoctor "Mar"]
    "mar" 0 1 (by decide) (by decide) (by decide) (by decide)

theorem clubResults_mem {cs : List Club} {q : String} {r : ScoredClub}
    (h : r ∈ clubResults cs q) :
    r.club ∈ cs ∧
      r.score = scoreClub (searchTermOf q) (normQueryOf q)
        (queryTokensOf q) r.club ∧
      0 < r.score ∧ r.normClubName = normalize r.club.name := by
  unfold clubResults at h
  obtain ⟨c, hc, hr⟩ := List.mem_filterMap.mp h
  simp only at hr
  by_cases hpos : scoreClub (searchTermOf q) (normQueryOf q)
      (queryTokensOf q) c > 0
  · rw [if_pos hpos] at hr
    obtain rfl := Option.some.inj hr
    exact ⟨hc, rfl, hpos, rfl⟩
  · rw [if_neg hpos] at hr
    cases hr

theorem clubResults_mem_of {cs : List Club} {q : String} {c : Club}
    (hc : c ∈ cs)
    (hpos : 0 < scoreClub (searchTermOf q) (normQueryOf q)
      (queryTokensOf q) c) :
    (⟨c, scoreClub (searchTermOf q) (normQueryOf q) (queryTokensOf q) c,
      normalize c.name⟩ : ScoredClub) ∈ clubResults cs q := by
  unfold clubResults
  apply List.mem_filterMap.mpr
  exact ⟨c, hc, by simp only [if_pos hpos]⟩

/-- The canonical dedup key the code computes for a club record. -/
def clubKey (c : Club) : String := normalize c.name

theorem keyOfScoredClub_eq {r : ScoredClub}
    (h : r.normClubName = normalize r.club.name) :
    keyOfScoredClub r = clubKey r.club := by
  unfold keyOfScoredClub clubKey
  rw [h]
  split_ifs <;> rfl

theorem keyOfScoredClub_mk (c : Club) (sc : Nat) :
    keyOfScoredClub ⟨c, sc, normalize c.name⟩ = clubKey c :=
  keyOfScoredClub_eq rfl

/-- C6: neither `search` nor `searchClubs` ever returns two records whose
canonical name keys coincide, and each returned record's score dominates the
score of every qualifying input record sharing its key. -/
theorem C6_deduplication_invariant :
    (∀ (doctors : List Doctor) (query : String),
      (search doctors query).Pairwise (fun d1 d2 => docKey d1 ≠ docKey d2) ∧
      (∀ d ∈ search doctors query, ∀ d' ∈ doctors,
        0 < scoreDoctor (searchTermOf query) (normQueryOf query)
          (queryTokensOf query) d' →
        docKey d' = docKey d →
        scoreDoctor (searchTermOf query) (normQueryOf query)
          (queryTokensOf query) d' ≤
        scoreDoctor (searchTermOf query) (normQueryOf query)
          (queryTokensOf query) d)) ∧
    (∀ (clubs : List Club) (query : String),
      (searchClubs clubs query).Pairwise (fun c1 c2 => clubKey c1 ≠ clubKey c2) ∧
      (∀ c ∈ searchClubs clubs query, ∀ c' ∈ clubs,
        0 < scoreClub (searchTermOf query) (normQueryOf query)
          (queryTokensOf query) c' →
        clubKey c' = clubKey c →
        scoreClub (searchTermOf query) (normQueryOf query)
          (queryTokensOf query) c' ≤
        scoreClub (searchTermOf query) (normQueryOf query)
          (queryTokensOf query) c)) := by
  constructor
  · intro ds q
    constructor
    · unfold search
      by_cases hg : q = "" ∨ (jsTrimStr q).length < 2
      · simp [hg]
      · rw [if_neg hg]
        unfold dedupVals
        exact pipe_pairwise_key keyOfScored ScoredDoctor.score
          (fun r => r.doctor) (searchResults ds q) docKey
          (fun r hr => keyOfScored_eq_docKey (searchResults_mem hr).2.2.2)
    · intro d hd d' hd' hpos hkey
      unfold search at hd
      by_cases hg : q = "" ∨ (jsTrimStr q).length < 2
      · rw [if_pos hg] at hd
        cases hd
      · rw [if_neg hg] at hd
        unfold dedupVals at hd
        obtain ⟨r, hrres, hrd, hmax⟩ := pipe_mem keyOfScored
          ScoredDoctor.score (fun r => r.doctor) (searchResults ds q) hd
        obtain ⟨_, hscore, _, hnorm⟩ := searchResults_mem hrres
        have hr' := searchResults_mem_of hd' hpos
        have hkeq : keyOfScored (⟨d', scoreDoctor (searchTermOf q)
            (normQueryOf q) (queryTokensOf q) d',
            normalize (jsTrimStr d'.name)⟩ : ScoredDoctor) = keyOfScored r := by
          rw [keyOfScored_mk, keyOfScored_eq_docKey hnorm, hrd]
          exact hkey
        have := hmax _ hr' hkeq
        rw [← hrd, ← hscore]
        exact this
  · intro cs q
    constructor
    · unfold searchClubs
      by_cases hg : q = "" ∨ (jsTrimStr q).length < 2
      · simp [hg]
      · rw [if_neg hg]
        unfold clubDedupVals
        exact pipe_pairwise_key keyOfScoredClub ScoredClub.score
          (fun r => r.club) (clubResults cs q) clubKey
          (fun r hr => keyOfScoredClub_eq (clubResults_mem hr).2.2.2)
    · intro c hc c' hc' hpos hkey
      unfold searchClubs at hc
      by_cases hg : q = "" ∨ (jsTrimStr q).length < 2
      · rw [if_pos hg] at hc
        cases hc
      · rw [if_neg hg] at hc
        unfold clubDedupVals at hc
        obtain ⟨r, hrres, hrd, hmax⟩ := pipe_mem keyOfScoredClub
          ScoredClub.score (fun r => r.club) (clubResults cs q) hc
        obtain ⟨_, hscore, _, hnorm⟩ := clubResults_mem hrres
        have hr' := clubResults_mem_of hc' hpos
        have hkeq : keyOfScoredClub (⟨c', scoreClub (searchTermOf q)
            (normQueryOf q) (queryTokensOf q) c',
            normalize c'.name⟩ : ScoredClub) = keyOfScoredClub r := by
          rw [keyOfScoredClub_mk, keyOfScoredClub_eq hnorm, hrd]
          exact hkey
        have := hmax _ hr' hkeq
        rw [← hrd, ← hscore]
        exact this

/-- C6 witness: the deduplication theorem applied at a concrete index and
query — two same-key doctors, the higher-scoring one survives and dominates
the other's score. -/
theorem C6_deduplication_invariant_witness :
    scoreDoctor (searchTermOf "ali") (normQueryOf "ali") (queryTokensOf "ali")
      (mkDoctor "ali") ≤
    scoreDoctor (searchTermOf "ali") (normQueryOf "ali") (queryTokensOf "ali")
      ⟨"ali", "xali y", "", "", ""⟩ :=
  (C6_deduplication_invariant.1
      [mkDoctor "ali", ⟨"ali", "xali y", "", "", ""⟩] "ali").2
    ⟨"ali", "xali y", "", "", ""⟩ (by decide) (mkDoctor "ali") (by decide)
    (by decide) (by decide)

/-- C7 (amended): `search` returns at most `MAX_RESULTS` records, and
exactly `min MAX_RESULTS k` of them when `k` deduplicated candidates
qualify; the output is sorted by descending score and consists of the
highest-scoring deduplicated candidates (everything cut off scores no more
than anything kept); equal-score ties keep the order of the deduplicated
candidate list, which is the order in which each canonical key was *first*
encountered in the input collection — not the discovery order of the
surviving records themselves. -/
theorem C7_truncation_and_ordering_amended :
    (∀ (doctors : List Doctor) (query : String),
      (search doctors query).length ≤ MAX_RESULTS) ∧
    (∀ (doctors : List Doctor) (query : String),
      ¬(query = "" ∨ (jsTrimStr query).length < 2) →
      (search doctors query).length =
        min MAX_RESULTS (dedupVals doctors query).length) ∧
    (∀ (doctors : List Doctor) (query : String),
      (search doctors query).Pairwise (fun a b =>
        scoreDoctor (searchTermOf query) (normQueryOf query)
          (queryTokensOf query) b ≤
        scoreDoctor (searchTermOf query) (normQueryOf query)
          (queryTokensOf query) a)) ∧
    (∀ (doctors : List Doctor) (query : String),
      ∀ r ∈ (sortDesc ScoredDoctor.score (dedupVals doctors query)).drop
        MAX_RESULTS,
      ∀ v ∈ (sortDesc ScoredDoctor.score (dedupVals doctors query)).take
        MAX_RESULTS,
      r.score ≤ v.score) ∧
    (∀ (doctors : List Doctor) (query : String) (v : Nat),
      (sortDesc ScoredDoctor.score (dedupVals doctors query)).filter
        (fun r => r.score == v) =
      (dedupVals doctors query).filter (fun r => r.score == v)) := by
  refine ⟨?_, ?_, search_pairwise_score, ?_, ?_⟩
  · intro ds q
    unfold search
    by_cases hg : q = "" ∨ (jsTrimStr q).length < 2
    · simp [hg, MAX_RESULTS]
    · rw [if_neg hg]
      simp only [List.length_map, List.length_take]
      omega
  · intro ds q hg
    unfold search
    rw [if_neg hg]
    simp only [List.length_map, List.length_take]
    rw [(sortDesc_perm ScoredDoctor.score (dedupVals ds q)).length_eq]
  · intro ds q r hr v hv
    have hs := sortDesc_sorted ScoredDoctor.score (dedupVals ds q)
    rw [← List.take_append_drop MAX_RESULTS
      (sortDesc ScoredDoctor.score (dedupVals ds q))] at hs
    exact (List.pairwise_append.mp hs).2.2 v hv r hr
  · intro ds q v
    exact sortDesc_filter_score ScoredDoctor.score v (dedupVals ds q)

/-- C7 witness: the amended theorem applied at a concrete index and query:
two qualifying records, guard discharged, output length `min 10 2 = 2`. -/
theorem C7_truncation_and_ordering_amended_witness :
    (search [mkDoctor "Ali", mkDoctor "Ali Baba"] "ali").length =
      min MAX_RESULTS
        (dedupVals [mkDoctor "Ali", mkDoctor "Ali Baba"] "ali").length :=
  C7_truncation_and_ordering_amended.2.1 [mkDoctor "Ali", mkDoctor "Ali Baba"]
    "ali" (by decide)

/-- C7 (counterexample to the tie-order clause): with records
`d1 = {name: "ali"}`, `d2 = {name: "ali z", dept: "Ali", office: "ALI",
email: "ali@x"}`, `d3 = {name: "ali", dept: "xali y"}` and query `"ali"`,
records `d2` and `d3` both score 410 and survive deduplication, `d2` is
discovered before `d3` in the input collection, yet the output lists `d3`
first — because `d3` replaces `d1` at the *key's* first-encounter position
in the `Map`, which precedes `d2`'s entry. -/
theorem C7_tie_discovery_order_counterexample :
    search [mkDoctor "ali",
        ⟨"ali z", "Ali", "ALI", "", "ali@x"⟩,
        ⟨"ali", "xali y", "", "", ""⟩] "ali" =
      [⟨"ali", "xali y", "", "", ""⟩, ⟨"ali z", "Ali", "ALI", "", "ali@x"⟩] ∧
    scoreDoctor (searchTermOf "ali") (normQueryOf "ali") (queryTokensOf "ali")
        ⟨"ali", "xali y", "", "", ""⟩ =
      scoreDoctor (searchTermOf "ali") (normQueryOf "ali")
        (queryTokensOf "ali") ⟨"ali z", "Ali", "ALI", "", "ali@x"⟩ := by
  constructor
  · decide
  · decide

/-- C10: `searchClubsAll` is extensionally identical to `searchClubs` —
despite its name and comment promising no truncation, its results are
deduplicated and truncated to the result cap exactly like `searchClubs`. -/
theorem C10_searchClubsAll_is_searchClubs :
    ∀ (clubs : List Club) (query : String),
      searchClubsAll clubs query = searchClubs clubs query ∧
      (searchClubsAll clubs query).length ≤ MAX_RESULTS := by
  intro cs q
  refine ⟨rfl, ?_⟩
  show (searchClubs cs q).length ≤ MAX_RESULTS
  unfold searchClubs
  by_cases hg : q = "" ∨ (jsTrimStr q).length < 2
  · simp [hg, MAX_RESULTS]
  · rw [if_neg hg]
    simp only [List.length_map, List.length_take]
    omega

/-- The parsed doctors JSON: an array of records, or any other JSON value —
on which `extractDepartments`' `this.doctors.forEach` would throw. -/
inductive DocsData
  | arr (l : List Doctor)
  | notArray
deriving DecidableEq

/-- Outcome of probing one candidate path inside `loadDoctors`' loop: the
file may be missing (`existsSync` false), unreadable (`readFileSync`
throws), unparseable (`JSON.parse` throws — both caught by the inner
`catch (innerError)`), or parse to a value. -/
inductive CandOutcome
  | missing
  | readError
  | parseError
  | parsed (v : DocsData)
deriving DecidableEq

/-- The building legend of `htuNameSystem.json` (only its identity matters
for the reload contract). -/
structure NameSystem where
  legend : List (String × String)
deriving DecidableEq

/-- The external world `reload` runs against: the doctors candidate paths
in probe order, the clubs file (`none` = read or parse failure) and the
name-system file. -/
structure LoadEnv where
  doctorCandidates : List CandOutcome
  clubsFile : Option (List Club)
  nameSystemFile : Option NameSystem
deriving DecidableEq

/-- The first candidate that exists, reads and parses. -/
def firstParsed : List CandOutcome → Option DocsData
  | [] => none
  | .parsed v :: _ => some v
  | .missing :: t => firstParsed t
  | .readError :: t => firstParsed t
  | .parseError :: t => firstParsed t

/-- Embedding of `HTUAssistant.loadDoctors`: probe the candidate paths in
order with a per-candidate try/catch; when none succeeds, the thrown
not-found error is caught by the outer catch, which logs and returns `[]`.
The function never throws. -/
def loadDoctors (env : LoadEnv) : DocsData :=
  (firstParsed env.doctorCandidates).getD (.arr [])

/-- The aggressive club-name cleaning: `trim()` then `replace(/\s+/g, ' ')`. -/
def cleanClubName (s : String) : String := ⟨collapseWs (trimL s.data)⟩

/-- `club[f] ? club[f].toString().trim() : 'N/A'`. -/
def orNA (s : String) : String := if s = "" then "N/A" else jsTrimStr s

/-- The cleaned club record pushed by `loadClubs` for a valid raw club. -/
def cleanClub (c : Club) (nm : String) : Club :=
  ⟨orNA c.team, nm, orNA c.email, orNA c.instagram,
   if c.about = "" then "" else jsTrimStr c.about⟩

/-- The validation loop of `loadClubs`: skip clubs missing a required field,
skip duplicate cleaned names (`seenNames`), clean the rest. -/
def validClubsAux : List String → List Club → List Club
  | _, [] => []
  | seen, c :: rest =>
    if c.team = "" ∨ c.name = "" then validClubsAux seen rest
    else
      let nm := cleanClubName c.name
      if nm ∈ seen then validClubsAux seen rest
      else cleanClub c nm :: validClubsAux (nm :: seen) rest

/-- Embedding of `HTUAssistant.loadClubs`: on any read/parse failure the
catch returns `[]`; otherwise validate and clean. Never throws. -/
def loadClubs (env : LoadEnv) : List Club :=
  match env.clubsFile with
  | none => []
  | some raw => validClubsAux [] raw

/-- Embedding of `HTUAssistant.loadNameSystem`: `{}` on failure. -/
def loadNameSystem (env : LoadEnv) : NameSystem :=
  env.nameSystemFile.getD ⟨[]⟩

/-- First-occurrence deduplication (the insertion-ordered `Set`). -/
def dedupSeen : List String → List String → List String
  | _, [] => []
  | seen, s :: t =>
    if s ∈ seen then dedupSeen seen t else s :: dedupSeen (s :: seen) t

/-- Insertion step of the default lexicographic `Array.prototype.sort`. -/
def insertStr (s : String) : List String → List String
  | [] => [s]
  | x :: xs => if x < s then x :: insertStr s xs else s :: x :: xs

/-- Default lexicographic `Array.prototype.sort`. -/
def sortStrings (l : List String) : List String := l.foldr insertStr []

/-- Embedding of `HTUAssistant.extractDepartments`: collect the trimmed
truthy departments into a `Set`, then sort.  On a non-array doctors value
`this.doctors.forEach` throws a `TypeError`. -/
def extractDepartments : DocsData → Except String (List String)
  | .arr l => .ok (sortStrings (dedupSeen [] (l.filterMap (fun d =>
      if d.department ≠ "" then some (jsTrimStr d.department) else none))))
  | .notArray => .error "TypeError: this.doctors.forEach is not a function"

/-- The assistant's mutable state: the four fields assigned by the
constructor and by `reload`. -/
structure AState where
  doctors : DocsData
  departments : List String
  clubs : List Club
  nameSystem : NameSystem
deriving DecidableEq

/-- The value of `reload()`: `{ok: true, doctors, clubs}` counts, or
`{ok: false, error}`. -/
inductive ReloadResult
  | ok (doctors clubs : Nat)
  | err (msg : String)
deriving DecidableEq

/-- `this.doctors.length` (only read after `extractDepartments` succeeds,
hence on an array). -/
def docsLen : DocsData → Nat
  | .arr l => l.length
  | .notArray => 0

/-- Embedding of `HTUAssistant.reload`: the four assignments run in order
inside one try/catch; `this.doctors` is assigned before
`extractDepartments` can throw, so a thrown `TypeError` leaves the new
doctors value in place while the remaining fields keep their previous
values, and the catch returns `{ok: false, error}`. -/
def reload (st : AState) (env : LoadEnv) : AState × ReloadResult :=
  let d := loadDoctors env
  match extractDepartments d with
  | .error e => ({ st with doctors := d }, .err e)
  | .ok deps =>
    let cs := loadClubs env
    let ns := loadNameSystem env
    (⟨d, deps, cs, ns⟩, .ok (docsLen d) cs.length)

/-- C1 (counterexample): with a populated previous state and every doctors
candidate path missing, `reload` returns `ok: true` with zero counts and
*replaces* the doctors collection by the empty one — the loaders swallow
the failure, so neither the `ok: false` report nor the keep-last-good
behaviour the claim requires happens. -/
theorem C1_reload_counterexample :
    reload
      ⟨.arr [mkDoctor "Dr X"], ["Civil"], [⟨"Club", "C", "e", "i", "a"⟩], ⟨[]⟩⟩
      ⟨[.missing, .missing, .missing], none, none⟩ =
      (⟨.arr [], [], [], ⟨[]⟩⟩, .ok 0 0) ∧
    (DocsData.arr [] : DocsData) ≠ .arr [mkDoctor "Dr X"] ∧
    (ReloadResult.ok 0 0 : ReloadResult) ≠ .err
      "TypeError: this.doctors.forEach is not a function" := by
  refine ⟨by decide, by decide, by decide⟩

/-- C1 (amended): `reload` never throws.  Loader failures are swallowed
inside the loaders, which return empty collections, so `reload` reports
`ok: true` (with the new, possibly empty counts) and replaces the whole
index; in particular a missing/unreadable/unparseable doctors file yields
the empty index with `ok: true`.  Only when the doctors file parses to a
non-array does rebuilding the department index throw, making `reload`
return `ok: false` with an error description — and even then the doctors
collection has already been replaced, while departments, clubs and the
name system keep their previous values. -/
theorem C1_reload_amended :
    ∀ (st : AState) (env : LoadEnv),
      (∀ l deps, loadDoctors env = .arr l →
        extractDepartments (.arr l) = .ok deps →
        reload st env =
          (⟨.arr l, deps, loadClubs env, loadNameSystem env⟩,
           .ok l.length (loadClubs env).length)) ∧
      (loadDoctors env = .notArray →
        reload st env =
          ({ st with doctors := .notArray },
           .err "TypeError: this.doctors.forEach is not a function")) ∧
      (firstParsed env.doctorCandidates = none →
        reload st env =
          (⟨.arr [], [], loadClubs env, loadNameSystem env⟩,
           .ok 0 (loadClubs env).length)) := by
  intro st env
  refine ⟨?_, ?_, ?_⟩
  · intro l deps hload hdeps
    unfold reload
    rw [hload]
    simp only [hdeps]
    rfl
  · intro hload
    unfold reload
    rw [hload]
    rfl
  · intro hfp
    have hload : loadDoctors env = .arr [] := by
      unfold loadDoctors
      rw [hfp]
      rfl
    unfold reload
    rw [hload]
    rfl

/-- C1 witness: the amended theorem applied at a concrete state and
environment with all candidate paths missing. -/
theorem C1_reload_amended_witness :
    reload ⟨.arr [mkDoctor "Dr Y"], ["IT"], [], ⟨[]⟩⟩
        ⟨[.missing, .readError, .parseError], none, none⟩ =
      (⟨.arr [], [],
        loadClubs ⟨[.missing, .readError, .parseError], none, none⟩,
        loadNameSystem ⟨[.missing, .readError, .parseError], none, none⟩⟩,
       .ok 0 (loadClubs ⟨[.missing, .readError, .parseError], none,
         none⟩).length) :=
  (C1_reload_amended ⟨.arr [mkDoctor "Dr Y"], ["IT"], [], ⟨[]⟩⟩
    ⟨[.missing, .readError, .parseError], none, none⟩).2.2 (by decide)

/-- Character atoms of the regex patterns used by
`parseNaturalLanguageQuery`: `.` (anything but a line terminator), `\s`,
and literal characters. -/
inductive RAtom
  | anyC
  | wsC
  | litC (c : Char)
deriving DecidableEq

/-- Abstract syntax of the (ECMAScript) regex fragment the intent patterns
use: literals, concatenation, ordered alternation, greedy `*` `+` `?`, and
numbered capturing groups. -/
inductive Rx
  | eps
  | ch (a : RAtom)
  | strR (s : List Char)
  | cat (r1 r2 : Rx)
  | alt (r1 r2 : Rx)
  | star (r : Rx)
  | plus (r : Rx)
  | opt (r : Rx)
  | grp (n : Nat) (r : Rx)
deriving DecidableEq

/-- Atom matching; JS `.` excludes the four LineTerminator characters. -/
def matchAtom (a : RAtom) (c : Char) : Bool :=
  match a with
  | .anyC => !(c == '\n' || c == '\r' || c == '\u2028' || c == '\u2029')
  | .wsC => isJsWs c
  | .litC d => c == d

/-- Backtracking matcher with ECMAScript preference order: alternation is
tried left to right and quantifiers are greedy, the first success wins.
Captures are threaded through the continuation (latest capture of a group
first, as `Array`-style last-write-wins).  The fuel bounds recursion depth;
the star guard mirrors the ECMAScript rule that an iteration must consume
input. -/
def mrun {ρ : Type} : Nat → Rx → List Char → List (Nat × String) →
    (List Char → List (Nat × String) → Option ρ) → Option ρ
  | 0, _, _, _, _ => none
  | fuel + 1, r, s, caps, k =>
    match r with
    | .eps => k s caps
    | .ch a =>
      match s with
      | [] => none
      | c :: rest => if matchAtom a c then k rest caps else none
    | .strR l => if l.isPrefixOf s then k (s.drop l.length) caps else none
    | .cat r1 r2 => mrun fuel r1 s caps (fun s' caps' => mrun fuel r2 s' caps' k)
    | .alt r1 r2 =>
      match mrun fuel r1 s caps k with
      | some res => some res
      | none => mrun fuel r2 s caps k
    | .star r1 =>
      match mrun fuel r1 s caps (fun s' caps' =>
          if s'.length < s.length then mrun fuel (.star r1) s' caps' k
          else none) with
      | some res => some res
      | none => k s caps
    | .plus r1 =>
      mrun fuel r1 s caps (fun s' caps' => mrun fuel (.star r1) s' caps' k)
    | .opt r1 =>
      match mrun fuel r1 s caps k with
      | some res => some res
      | none => k s caps
    | .grp n r1 =>
      mrun fuel r1 s caps (fun s' caps' =>
        k s' ((n, (⟨s.take (s.length - s'.length)⟩ : String)) :: caps'))

/-- Recursion-depth budget; the intent queries are short, their patterns
shallow, and every star iteration consumes input, so depth is far below
this. -/
def rxFuel : Nat := 100000

/-- Unanchored match (`String.prototype.match` with a non-global regex):
try each start position from the left, first success wins; yield the final
capture list. -/
def rxSearch (r : Rx) : List Char → Option (List (Nat × String))
  | [] => mrun rxFuel r [] [] (fun _ caps => some caps)
  | c :: t =>
    match mrun rxFuel r (c :: t) [] (fun _ caps => some caps) with
    | some caps => some caps
    | none => rxSearch r t

/-- Literal regex text. -/
def litR (s : String) : Rx := .strR s.data

/-- Ordered alternation `a|b|…`. -/
def altL : List Rx → Rx
  | [] => .eps
  | [r] => r
  | r :: rest => .alt r (altL rest)

/-- Ordered concatenation. -/
def catL (l : List Rx) : Rx := l.foldr Rx.cat .eps

/-- An optional literal character, e.g. the `s?` in `hours?`. -/
def optC (c : Char) : Rx := .opt (.ch (.litC c))

/-- `.*` -/
def dotStar : Rx := .star (.ch .anyC)

/-- `.+` -/
def dotPlus : Rx := .plus (.ch .anyC)

/-- `\s+` -/
def wsPlus : Rx := .plus (.ch .wsC)

/-- `\s*` -/
def wsStar : Rx := .star (.ch .wsC)

/-- The closed intent enumeration of `parseNaturalLanguageQuery`
(`question` is the generic interrogative fallback). -/
inductive Intent
  | officeHours
  | contactInfo
  | officeLocation
  | department
  | whoIs
  | admission
  | registrar
  | dean
  | question
deriving DecidableEq

/-- `office hours?|hours?|schedule` -/
def hoursAlt : Rx :=
  altL [Rx.cat (litR "office hour") (optC 's'),
        Rx.cat (litR "hour") (optC 's'), litR "schedule"]

/-- The ordered intent-pattern table of `parseNaturalLanguageQuery`, each
pattern with its syntactic capture-group count (`match.length - 1`).
`Object.entries` iterates string keys in insertion order, so both the
intent order and the per-intent pattern order are exactly the source's. -/
def patternTable : List (Intent × List (Rx × Nat)) :=
  [(.officeHours,
    [(catL [altL [Rx.cat (litR "what ar") (optC 'e'),
                  Rx.cat (litR "when ar") (optC 'e'), litR "tell me about"],
            dotStar, .grp 1 hoursAlt, dotStar,
            .grp 2 (altL [litR "of", litR "for"]), wsPlus, .grp 3 dotPlus], 3),
     (catL [hoursAlt, dotStar, .grp 1 (altL [litR "of", litR "for"]),
            wsPlus, .grp 2 dotPlus], 2),
     (catL [litR "when ",
            altL [litR "is", litR "does",
                  Rx.cat (litR "can i ")
                    (altL [litR "find", litR "see", litR "meet"])],
            wsPlus, .grp 1 dotPlus, wsStar,
            .opt (altL [litR "available", litR "in office",
                        litR "at office"])], 1),
     (catL [.grp 1 dotPlus, wsPlus, hoursAlt], 1)]),
   (.contactInfo,
    [(catL [altL [Rx.cat (litR "what i") (optC 's'), litR "give me",
                  litR "tell me"],
            dotStar, .grp 1 (altL [litR "email", litR "contact", litR "phone"]),
            dotStar, .grp 2 (altL [litR "of", litR "for"]), wsPlus,
            .grp 3 dotPlus], 3),
     (catL [altL [litR "email", litR "contact", litR "phone"], dotStar,
            .grp 1 (altL [litR "of", litR "for"]), wsPlus, .grp 2 dotPlus], 2),
     (catL [litR "how ", altL [litR "can i", litR "do i"], litR " ",
            altL [litR "contact", litR "reach", litR "email"], wsPlus,
            .grp 1 dotPlus], 1),
     (catL [.grp 1 dotPlus, wsPlus,
            altL [litR "email", litR "contact", litR "phone"]], 1)]),
   (.officeLocation,
    [(catL [altL [Rx.cat (litR "where i") (optC 's'),
                  Rx.cat (litR "what i") (optC 's')],
            dotStar, .grp 1 (altL [litR "office", litR "room", litR "location"]),
            dotStar, .grp 2 (altL [litR "of", litR "for"]), wsPlus,
            .grp 3 dotPlus], 3),
     (catL [altL [litR "office", litR "room", litR "location"], dotStar,
            .grp 1 (altL [litR "of", litR "for"]), wsPlus, .grp 2 dotPlus], 2),
     (catL [litR "where ", altL [litR "can i find", litR "is"], wsPlus,
            .grp 1 dotPlus,
            .opt (altL [Rx.cat wsPlus (litR "located"),
                        Rx.cat wsPlus (litR "office")])], 1),
     (catL [.grp 1 dotPlus, wsPlus,
            altL [litR "office", litR "room", litR "location"]], 1)]),
   (.department,
    [(catL [altL [litR "what", litR "which"], wsPlus,
            altL [litR "department", litR "school", litR "faculty"], dotStar,
            .grp 1 (altL [litR "is", litR "does"]), wsPlus, .grp 2 dotPlus,
            wsPlus,
            altL [litR "in", litR "work", litR "belong", litR "teach"]], 2),
     (catL [.grp 1 dotPlus, wsPlus,
            altL [litR "department", litR "school", litR "faculty"]], 1),
     (catL [altL [litR "department", litR "school", litR "faculty"], dotStar,
            .grp 1 (altL [litR "of", litR "for"]), wsPlus, .grp 2 dotPlus], 2)]),
   (.whoIs,
    [(catL [litR "who is", wsPlus, .grp 1 dotPlus], 1),
     (catL [litR "tell me about", wsPlus, .grp 1 dotPlus], 1),
     (catL [altL [litR "what", litR "who"], wsPlus,
            altL [litR "is", litR "are"], wsPlus, .grp 1 dotPlus], 1)]),
   (.admission,
    [(catL [altL [Rx.cat (litR "who i") (optC 's'),
                  Rx.cat (litR "where i") (optC 's'),
                  Rx.cat (litR "what i") (optC 's')],
            dotStar,
            .grp 1 (altL [litR "admission",
                          Rx.cat (litR "admission") (optC 's'),
                          litR "enrollment"]),
            dotStar,
            .opt (.grp 2 (altL [litR "office", litR "department",
                                litR "contact"]))], 2),
     (catL [altL [litR "admission", Rx.cat (litR "admission") (optC 's'),
                  litR "enrollment"],
            dotStar,
            .grp 1 (altL [litR "office", litR "department", litR "contact",
                          litR "info", litR "information"])], 1),
     (catL [litR "how ", altL [litR "can i", litR "do i"], dotStar,
            .grp 1 (altL [litR "apply", litR "enroll", litR "admit",
                          litR "admission"])], 1)]),
   (.registrar,
    [(catL [altL [Rx.cat (litR "who i") (optC 's'),
                  Rx.cat (litR "where i") (optC 's'),
                  Rx.cat (litR "what i") (optC 's')],
            dotStar,
            .grp 1 (altL [litR "registrar", litR "registration",
                          Rx.cat (litR "academic record") (optC 's')]),
            dotStar,
            .opt (.grp 2 (altL [litR "office", litR "department",
                                litR "contact"]))], 2),
     (catL [altL [litR "registrar", litR "registration",
                  Rx.cat (litR "academic record") (optC 's')],
            dotStar,
            .grp 1 (altL [litR "office", litR "department", litR "contact",
                          litR "info"])], 1)]),
   (.dean,
    [(catL [Rx.cat (litR "who i") (optC 's'), dotStar,
            .grp 1 (altL [litR "dean", litR "head"]), dotStar,
            .opt (.grp 2 (altL [litR "of", litR "for"])), wsStar,
            .opt (.grp 3 dotPlus)], 3),
     (catL [.grp 1 dotPlus, wsPlus, altL [litR "dean", litR "head"]], 1)])]

/-- Try the patterns of one intent in order. -/
def tryPats (s : List Char) : List (Rx × Nat) → Option (List (Nat × String) × Nat)
  | [] => none
  | (r, gc) :: rest =>
    match rxSearch r s with
    | some caps => some (caps, gc)
    | none => tryPats s rest

/-- Try the intents in declaration order; first matching (intent, pattern)
pair wins. -/
def findIntent (s : List Char) :
    List (Intent × List (Rx × Nat)) → Option (Intent × List (Nat × String) × Nat)
  | [] => none
  | (tag, pats) :: rest =>
    match tryPats s pats with
    | some (caps, gc) => some (tag, caps, gc)
    | none => findIntent s rest

/-- JS `a || b` on possibly-undefined strings: an absent value and the
empty string are both falsy. -/
def jsFalsyOr (a b : Option String) : Option String :=
  match a with
  | some s => if s = "" then b else some s
  | none => b

/-- Entity extraction: `match[match.length - 1] || match[1] || ''`, then
`trim()` and stripping of `[?.,!]`. -/
def cleanEntity (caps : List (Nat × String)) (gc : Nat) : String :=
  if gc + 1 ≥ 2 then
    let raw := (jsFalsyOr (alookup caps gc)
      (jsFalsyOr (alookup caps 1) (some ""))).getD ""
    (⟨(jsTrimStr raw).data.filter
      (fun c => !(c == '?' || c == '.' || c == ',' || c == '!'))⟩ : String)
  else ""

/-- The intent result produced by `parseNaturalLanguageQuery`. -/
structure IntentResult where
  intent : Intent
  entity : String
  confidence : ℚ
  originalQuery : String
deriving DecidableEq

/-- The anchored regex of the generic-question fallback:
`/^(what|who|where|when|how)\s+(is|are|can|do|does)\s*/`. -/
def questionRx : Rx :=
  catL [.grp 1 (altL [litR "what", litR "who", litR "where", litR "when",
                      litR "how"]),
        wsPlus,
        .grp 2 (altL [litR "is", litR "are", litR "can", litR "do",
                      litR "does"]),
        wsStar]

/-- `replace(/^(…)\s+(…)\s*/, '')`: drop the leading interrogative-plus-verb
phrase if the anchored pattern matches, else leave the string unchanged. -/
def stripLeadingQuestion (s : String) : String :=
  match mrun rxFuel questionRx s.data [] (fun rest _ => some rest) with
  | some rest => (⟨rest⟩ : String)
  | none => s

/-- Embedding of `HTUAssistant.parseNaturalLanguageQuery` on a string
argument: lowercase and trim the query, try every (intent, pattern) pair in
declaration order and return on the first match; otherwise fall back to the
generic `question` intent when an interrogative word occurs anywhere;
otherwise `none`. -/
def parseNaturalLanguageQuery (query : String) : Option IntentResult :=
  let normalizedQuery := jsTrimStr (jsLowerStr query)
  match findIntent normalizedQuery.data patternTable with
  | some (tag, caps, gc) => some ⟨tag, cleanEntity caps gc, 8 / 10, query⟩
  | none =>
    if includesB normalizedQuery "what" || includesB normalizedQuery "who" ||
        includesB normalizedQuery "where" ||
        includesB normalizedQuery "when" ||
        includesB normalizedQuery "how" then
      some ⟨.question, stripLeadingQuestion normalizedQuery, 6 / 10, query⟩
    else none

/-- A thrown JS exception. -/
inductive JsError
  | typeError (msg : String)
deriving DecidableEq

/-- Embedding of `parseNaturalLanguageQuery` over its real input domain:
`none` stands for `null`/`undefined`, on which the very first statement
`query.toLowerCase()` throws a `TypeError` — there is no falsy-input guard
in this function. -/
def parseNaturalLanguageQueryJS :
    Option String → Except JsError (Option IntentResult)
  | none => .error (.typeError "Cannot read properties of null")
  | some q => .ok (parseNaturalLanguageQuery q)

/-- Discriminator for thrown versus returned results. -/
def isThrown {ε α : Type} : Except ε α → Bool
  | .error _ => true
  | .ok _ => false

/-- C3 (amended): on every *string* input, including the empty string, the
intent extractor returns an `IntentResult` or none and never raises; the
empty string falls through every pattern and the interrogative fallback and
yields none.  (Null/undefined input is *not* treated as the empty string —
see the counterexample.) -/
theorem C3_parse_total_on_strings_amended :
    (∀ s : String, ∃ r : Option IntentResult,
      parseNaturalLanguageQueryJS (some s) = .ok r) ∧
    parseNaturalLanguageQueryJS (some "") = .ok none := by
  constructor
  · intro s
    exact ⟨parseNaturalLanguageQuery s, rfl⟩
  · rfl

/-- C3 (counterexample): on `null`/`undefined` the first statement
`query.toLowerCase().trim()` throws a `TypeError`; the claim's "absent/null
text is treated as the empty string, never an error" is false for
`parseNaturalLanguageQuery`, which has no falsy-input guard. -/
theorem C3_parse_null_throws_counterexample :
    parseNaturalLanguageQueryJS none =
      .error (.typeError "Cannot read properties of null") ∧
    isThrown (parseNaturalLanguageQueryJS none) = true ∧
    isThrown (parseNaturalLanguageQueryJS (some "")) = false := by
  refine ⟨rfl, rfl, rfl⟩

/-- C8: on `"what are the office hours of Dr. Mohammad?"` the extractor
returns the office-hours intent with entity `"dr mohammad"` (lowercased,
punctuation-stripped, containing `"mohammad"`); the first (intent, pattern)
pair in declaration order — the first `officeHours` pattern — wins. -/
theorem C8_office_hours_intent :
    (parseNaturalLanguageQuery
        "what are the office hours of Dr. Mohammad?").map
      (fun r => (r.intent, r.entity)) =
      some (Intent.officeHours, "dr mohammad") ∧
    includesB "dr mohammad" "mohammad" = true := by
  refine ⟨by decide, by decide⟩

end HTU
